import Mathlib

/-!
# Task scheduler: sorting, grouping and overlap detection

A shallow embedding of `scheduler.js` and the properties of its three operations
`sortTasks`, `groupTasksByPriority` and `detectOverlaps`.

Modelling conventions

* A JavaScript array of tasks is a `List Task`; `start` and `end` are integers (`Int`),
  so the subtraction in the comparator and the comparisons are exact.  The integers the
  program can hold are those that are numbers of the language (binary64 values).
* The conversion of a number to a string, which the template literal applies, is embedded
  as the language defines it on integer values: the shortest digits that read back as the
  same number, in exponent form from `10 ^ 21` on.
* `Array.prototype.sort` is a stable sort.  It is embedded as a stable insertion sort
  driven by the sign of the comparator, exactly as the language standard reads the
  comparator: a positive value of `cmp a b` moves `b` in front of `a`, any other value
  keeps `a` first.
* A JavaScript object used as a dictionary is an association list of its own properties
  together with the property names it inherits from `Object.prototype`.
* A thrown exception is the `Except.error` result.
* For the question of what a call does to the caller's array, the three functions are given
  a second time on a heap of arrays passed by reference, and shown to compute what the
  functions on values compute.
-/

namespace Scheduler

/-! ## Data model -/

/-- A task object `{ name, start, end, priority }`.  The field `end` is spelled `end_`
because `end` is a reserved word. -/
structure Task where
  name : String
  start : Int
  end_ : Int
  priority : String
deriving DecidableEq, Repr

/-- The object pushed by `detectOverlaps`: `{ status, task1, task2, time }`. -/
structure ConflictRecord where
  status : String
  task1 : String
  task2 : String
  time : String
deriving DecidableEq, Repr

/-! ## Feature 1: sorting -/

/-- The comparator `(a, b) => a.start - b.start` handed to `sort`. -/
def compareFn (a b : Task) : Int :=
  a.start - b.start

/-- One insertion of the stable sort: `a`, which preceded every element of the list in the
input, is moved behind exactly the elements `b` with `cmp a b > 0`. -/
def sortInsert {α : Type} (cmp : α → α → Int) (a : α) : List α → List α
  | [] => [a]
  | b :: l => if cmp a b ≤ 0 then a :: b :: l else b :: sortInsert cmp a l

/-- The library routine `Array.prototype.sort(cmp)`: a stable sort by the sign of `cmp`. -/
def arraySort {α : Type} (cmp : α → α → Int) : List α → List α
  | [] => []
  | a :: l => sortInsert cmp a (arraySort cmp l)

/-- The spread `[...taskList]`: a fresh array holding the same elements. -/
def spread {α : Type} (taskList : List α) : List α :=
  taskList

/-- The function `sortTasks`: `return [...taskList].sort((a, b) => a.start - b.start)`. -/
def sortTasks (taskList : List Task) : List Task :=
  arraySort compareFn (spread taskList)

/-! ## Feature 3: overlap detection -/

/-- The number of low bits a natural number loses when it is stored with the 53 significant
bits of a number of the language: halve until the value is below `2 ^ 53`. -/
def shiftFor : Nat → Nat → Nat
  | 0, _ => 0
  | fuel + 1, m => if m < 9007199254740992 then 0 else shiftFor fuel (m / 2) + 1

/-- The number of the language nearest to a natural number: 53 significant bits, a value
halfway between two numbers going to the one with the even significand. -/
def roundDouble (m : Nat) : Nat :=
  let e := shiftFor m m
  let q := m / 2 ^ e
  let r := m % 2 ^ e
  if 2 * r < 2 ^ e then q * 2 ^ e
  else if 2 ^ e < 2 * r then (q + 1) * 2 ^ e
  else if q % 2 = 0 then q * 2 ^ e else (q + 1) * 2 ^ e

/-- Whether some digit string followed by `e` zeros reads back as the number `x`: it is
enough to try the multiple of `10 ^ e` just below or at `x` and the one just above. -/
def validAt (x e : Nat) : Bool :=
  (decide (1 ≤ x / 10 ^ e) && decide (roundDouble (x / 10 ^ e * 10 ^ e) = x)) ||
    decide (roundDouble ((x / 10 ^ e + 1) * 10 ^ e) = x)

/-- The largest number of trailing zeros with which `x` can be written, counting up from
`e`: one more zero means one digit fewer. -/
def maxExp (x : Nat) : Nat → Nat → Nat
  | 0, e => e
  | fuel + 1, e => if validAt x (e + 1) then maxExp x fuel (e + 1) else e

/-- The digits written in front of `e` zeros: of the two candidates, the one that reads back
as `x`; if both do, the nearer to `x`, and the even one if they are equally near. -/
def chooseDigits (x e : Nat) : Nat :=
  let lo := x / 10 ^ e
  let hi := lo + 1
  let loOk := decide (1 ≤ lo) && decide (roundDouble (lo * 10 ^ e) = x)
  let hiOk := decide (roundDouble (hi * 10 ^ e) = x)
  if loOk && hiOk then
    if x - lo * 10 ^ e < hi * 10 ^ e - x then lo
    else if hi * 10 ^ e - x < x - lo * 10 ^ e then hi
    else if lo % 2 = 0 then lo else hi
  else if loOk then lo else hi

/-- The conversion of a non-negative integer number to a string: the shortest digits that
read back as the number, followed by their zeros when the value is below `10 ^ 21`, and in
the form `d.ddde+n` from there on.  It is meant for the numbers of the language, all of
which lie below `2 ^ 1024`. -/
def natToString (x : Nat) : String :=
  if x = 0 then "0"
  else
    let xd := roundDouble x
    let e := maxExp xd xd 0
    let s := chooseDigits xd e
    if s * 10 ^ e < 10 ^ 21 then toString s ++ String.mk (List.replicate e '0')
    else
      match Nat.toDigits 10 s with
      | [] => ""
      | d :: rest =>
        String.mk (d :: (if rest = [] then [] else '.' :: rest)) ++ "e+" ++
          toString (rest.length + e)

/-- The conversion of an integer number to a string, as a template literal applies it: a
`-` in front of the conversion of the absolute value for a negative number.  Integers
below `2 ^ 53` in absolute value come out as their decimal digits; larger ones need not
(`2 ^ 59` comes out as `576460752303423500`, `10 ^ 21` as `1e+21`). -/
def numberToString (n : Int) : String :=
  match n with
  | Int.ofNat m => natToString m
  | Int.negSucc m => "-" ++ natToString (m + 1)

/-- The template literal with two holes, `${a} - ${b}`: each hole is filled with the
conversion of the number to a string. -/
def timeString (a b : Int) : String :=
  numberToString a ++ " - " ++ numberToString b

/-- The object literal pushed for a conflicting pair `(current, next)`. -/
def conflictRecord (current next : Task) : ConflictRecord :=
  ConflictRecord.mk "Conflict" current.name next.name (timeString next.start current.end_)

/-- The body of the `for` loop of `detectOverlaps` at index `i`.  Reading an index outside
the array yields `undefined`; the loop bound keeps both reads inside, so the last branch is
never taken. -/
def loopBody (sortedTasks : List Task) (overlaps : List ConflictRecord) (i : Nat) :
    List ConflictRecord :=
  match sortedTasks[i]?, sortedTasks[i + 1]? with
  | some current, some next =>
    if next.start < current.end_ then overlaps ++ [conflictRecord current next] else overlaps
  | _, _ => overlaps

/-- The function `detectOverlaps`: sort, then run `i` from `0` while `i < length - 1`
(the bound is `-1` for the empty array in the source and `0` here: no iteration either way). -/
def detectOverlaps (taskList : List Task) : List ConflictRecord :=
  let sortedTasks := sortTasks taskList
  (List.range (sortedTasks.length - 1)).foldl (loopBody sortedTasks) []

/-- The sample data of the script. -/
def tasks : List Task :=
  [ Task.mk "Email Team" 900 1000 "High",
    Task.mk "Client Meeting" 930 1030 "High",
    Task.mk "Code Review" 1100 1200 "Medium",
    Task.mk "Lunch" 1200 1300 "Low",
    Task.mk "Project Sync" 1230 1330 "High",
    Task.mk "Documentation" 1400 1600 "Medium" ]

/-! ## Feature 2: grouping -/

/-- The own properties of the object `groups`, in creation order.  Every value the
function stores is an array of tasks.  Only the set of keys and the bucket bound to each key
are used below, never the order of the keys. -/
abbrev Groups := List (String × List Task)

/-- The property names an object literal inherits from `Object.prototype`.  Each of them
is bound to a function (`__proto__` to the prototype object itself): a truthy value that
is not an array and has no `push` method. -/
def objectPrototypeKeys : List String :=
  [ "constructor", "__defineGetter__", "__defineSetter__", "hasOwnProperty",
    "__lookupGetter__", "__lookupSetter__", "isPrototypeOf", "propertyIsEnumerable",
    "toString", "valueOf", "__proto__", "toLocaleString" ]

/-- What the property read `groups[key]` can yield. -/
inductive JsValue where
  | undefined : JsValue
  | array : List Task → JsValue
  | inherited : JsValue
deriving DecidableEq, Repr

/-- The exception raised by calling a method that does not exist. -/
inductive JsError where
  | typeError : String → JsError
deriving DecidableEq, Repr

/-- Own-property lookup. -/
def getOwn : Groups → String → Option (List Task)
  | [], _ => none
  | (k, v) :: rest, key => if k = key then some v else getOwn rest key

/-- The property read `groups[key]`: an own property first, then the prototype chain. -/
def getProperty (groups : Groups) (key : String) : JsValue :=
  match getOwn groups key with
  | some ts => JsValue.array ts
  | none => if key ∈ objectPrototypeKeys then JsValue.inherited else JsValue.undefined

/-- Store `v` under the own property `key`: overwrite it in place, or create it last. -/
def setOwn : Groups → String → List Task → Groups
  | [], key, v => [(key, v)]
  | (k, w) :: rest, key, v => if k = key then (k, v) :: rest else (k, w) :: setOwn rest key v

/-- The callback of `taskList.forEach`.  Arrays, empty ones too, are truthy, and so is every
inherited value; only `undefined` takes the `else` branch.  `push` on an inherited value is
a call of `undefined` and throws. -/
def forEachBody (groups : Groups) (task : Task) : Except JsError Groups :=
  match getProperty groups task.priority with
  | JsValue.array ts => Except.ok (setOwn groups task.priority (ts ++ [task]))
  | JsValue.inherited =>
    Except.error (JsError.typeError "groups[task.priority].push is not a function")
  | JsValue.undefined => Except.ok (setOwn groups task.priority [task])

/-- The object literal `{ High: [], Medium: [], Low: [] }`. -/
def initialGroups : Groups :=
  [("High", []), ("Medium", []), ("Low", [])]

/-- The function `groupTasksByPriority`. -/
def groupTasksByPriority (taskList : List Task) : Except JsError Groups :=
  taskList.foldlM forEachBody initialGroups

/-! ## The operations on an explicit heap

The three functions once more, with arrays held in a heap and passed by reference, so that
an update in place (`sort`, `push`) is a write to the heap and a new array (`[...taskList]`,
`[]`, `[task]`) is an allocation. -/

/-- A reference to an array: its address in the heap. -/
abbrev Ref := Nat

/-- The heap: the arrays of tasks allocated so far, by address. -/
structure Heap where
  arrays : List (List Task)
deriving DecidableEq, Repr

/-- The array a reference points to (no array for a reference never handed out). -/
def readArray (h : Heap) (r : Ref) : List Task :=
  (h.arrays[r]?).getD []

/-- Update in place of the array at `r`. -/
def writeArray (h : Heap) (r : Ref) (a : List Task) : Heap :=
  Heap.mk (h.arrays.set r a)

/-- A new array with contents `a`, at the next free address. -/
def allocArray (h : Heap) (a : List Task) : Ref × Heap :=
  (h.arrays.length, Heap.mk (h.arrays ++ [a]))

/-- The method `sort(cmp)` on the array at `r`: sorts that array in place and returns the
reference it was called on. -/
def sortInPlace (cmp : Task → Task → Int) (h : Heap) (r : Ref) : Ref × Heap :=
  (r, writeArray h r (arraySort cmp (readArray h r)))

/-- The function `sortTasks` on the heap: `[...taskList]` allocates the copy, `sort` then
works on the copy. -/
def sortTasksHeap (h : Heap) (taskList : Ref) : Ref × Heap :=
  let copy := allocArray h (spread (readArray h taskList))
  sortInPlace compareFn copy.2 copy.1

/-- The function `detectOverlaps` on the heap; the loop only reads `sortedTasks`. -/
def detectOverlapsHeap (h : Heap) (taskList : Ref) : List ConflictRecord × Heap :=
  let sorted := sortTasksHeap h taskList
  ((List.range ((readArray sorted.2 sorted.1).length - 1)).foldl
    (fun overlaps i => loopBody (readArray sorted.2 sorted.1) overlaps i) [], sorted.2)

/-- The own properties of `groups` on the heap: each key is bound to a reference. -/
abbrev GroupRefs := List (String × Ref)

/-- What the property read `groups[key]` can yield, with arrays by reference. -/
inductive JsRefValue where
  | undefined : JsRefValue
  | array : Ref → JsRefValue
  | inherited : JsRefValue
deriving DecidableEq, Repr

/-- Own-property lookup. -/
def getOwnRef : GroupRefs → String → Option Ref
  | [], _ => none
  | (k, r) :: rest, key => if k = key then some r else getOwnRef rest key

/-- The property read `groups[key]`: an own property first, then the prototype chain. -/
def getPropertyRef (groups : GroupRefs) (key : String) : JsRefValue :=
  match getOwnRef groups key with
  | some r => JsRefValue.array r
  | none => if key ∈ objectPrototypeKeys then JsRefValue.inherited else JsRefValue.undefined

/-- The assignment `groups[key] = r`: overwrite the own property, or create it last. -/
def setOwnRef : GroupRefs → String → Ref → GroupRefs
  | [], key, r => [(key, r)]
  | (k, w) :: rest, key, r =>
    if k = key then (k, r) :: rest else (k, w) :: setOwnRef rest key r

/-- The callback of `forEach` on the heap: `push` writes to the bucket's array in place,
`[task]` allocates a new array. -/
def forEachBodyHeap (groups : GroupRefs) (h : Heap) (task : Task) :
    Except JsError GroupRefs × Heap :=
  match getPropertyRef groups task.priority with
  | JsRefValue.array r => (Except.ok groups, writeArray h r (readArray h r ++ [task]))
  | JsRefValue.inherited =>
    (Except.error (JsError.typeError "groups[task.priority].push is not a function"), h)
  | JsRefValue.undefined =>
    let fresh := allocArray h [task]
    (Except.ok (setOwnRef groups task.priority fresh.1), fresh.2)

/-- The method `forEach` over the indices `ks` of the array at `taskList`: each element is
read from the heap when its turn comes; an exception ends the iteration. -/
def forEachLoop (taskList : Ref) : List Nat → GroupRefs → Heap → Except JsError GroupRefs × Heap
  | [], groups, h => (Except.ok groups, h)
  | k :: ks, groups, h =>
    match (readArray h taskList)[k]? with
    | none => forEachLoop taskList ks groups h
    | some task =>
      match forEachBodyHeap groups h task with
      | (Except.ok groups1, h1) => forEachLoop taskList ks groups1 h1
      | (Except.error e, h1) => (Except.error e, h1)

/-- The function `groupTasksByPriority` on the heap: the object literal allocates three
empty arrays, `forEach` then visits the indices below the length of `taskList`. -/
def groupTasksByPriorityHeap (h : Heap) (taskList : Ref) : Except JsError GroupRefs × Heap :=
  let high := allocArray h []
  let medium := allocArray high.2 []
  let low := allocArray medium.2 []
  forEachLoop taskList (List.range (readArray low.2 taskList).length)
    [("High", high.1), ("Medium", medium.1), ("Low", low.1)] low.2

/-- The mapping a heap object stands for: each key with the array its reference points to. -/
def readOut (h : Heap) (groups : GroupRefs) : Groups :=
  groups.map (fun b => (b.1, readArray h b.2))

/-- Every array of `h0` is still in `h`, at the same address and with the same contents. -/
def Preserves (h0 h : Heap) : Prop :=
  h0.arrays.length ≤ h.arrays.length ∧
    ∀ r, r < h0.arrays.length → readArray h r = readArray h0 r

/-- The invariant of the grouping loop on the heap: the arrays of the initial heap `h0` are
untouched, and the buckets are distinct arrays allocated after `h0`. -/
def GroupsInv (h0 : Heap) (groups : GroupRefs) (h : Heap) : Prop :=
  Preserves h0 h ∧ (groups.map Prod.snd).Nodup ∧
    ∀ r ∈ groups.map Prod.snd, h0.arrays.length ≤ r ∧ r < h.arrays.length

/-! ## Specification vocabulary -/

/-- The adjacent pair at positions `i`, `i + 1` of an array, when both exist. -/
def pairAt (s : List Task) (i : Nat) : Option (Task × Task) :=
  match s[i]?, s[i + 1]? with
  | some current, some next => some (current, next)
  | _, _ => none

/-- The test of the `if` statement in the loop, on a pair `(current, next)`. -/
def conflicts (p : Task × Task) : Bool :=
  decide (p.2.start < p.1.end_)

/-- The record pushed at iteration `i` of the scan, if any. -/
def recordAt (s : List Task) (i : Nat) : Option ConflictRecord :=
  (pairAt s i).bind (fun p => if conflicts p then some (conflictRecord p.1 p.2) else none)

/-- The three keys of the object literal that `groupTasksByPriority` starts from. -/
def canonicalKeys : List String :=
  ["High", "Medium", "Low"]

/-- What the own properties of `groups` hold once the tasks `done` have been visited: a bucket
for each canonical key and each priority seen, holding the visited tasks of that priority in
order, and nothing else. -/
def BucketsOf (groups : Groups) (done : List Task) : Prop :=
  ∀ k : String, getOwn groups k =
    if k ∈ canonicalKeys ∨ k ∈ done.map Task.priority then
      some (done.filter (fun t => decide (t.priority = k)))
    else none

/-! ## Sorting: auxiliary facts -/

theorem compareFn_nonpos (a b : Task) : compareFn a b ≤ 0 ↔ a.start ≤ b.start := by
  unfold compareFn
  omega

theorem sortInsert_perm {α : Type} (cmp : α → α → Int) (a : α) (l : List α) :
    (sortInsert cmp a l).Perm (a :: l) := by
  induction l with
  | nil => simp [sortInsert]
  | cons b l ih =>
    simp only [sortInsert]
    split
    · exact List.Perm.refl _
    · exact (List.Perm.cons b ih).trans (List.Perm.swap a b l)

theorem arraySort_perm {α : Type} (cmp : α → α → Int) (l : List α) :
    (arraySort cmp l).Perm l := by
  induction l with
  | nil => exact List.Perm.refl _
  | cons a l ih =>
    simp only [arraySort]
    exact (sortInsert_perm cmp a _).trans (List.Perm.cons a ih)

theorem sortInsert_pairwise (a : Task) (l : List Task)
    (h : l.Pairwise (fun p q => p.start ≤ q.start)) :
    (sortInsert compareFn a l).Pairwise (fun p q => p.start ≤ q.start) := by
  induction l with
  | nil => simp [sortInsert]
  | cons b l ih =>
    rw [List.pairwise_cons] at h
    simp only [sortInsert]
    split
    · rename_i hab
      rw [compareFn_nonpos] at hab
      refine List.Pairwise.cons ?_ (List.Pairwise.cons h.1 h.2)
      intro c hc
      rcases List.mem_cons.mp hc with rfl | hc
      · exact hab
      · exact le_trans hab (h.1 c hc)
    · rename_i hab
      rw [compareFn_nonpos] at hab
      refine List.Pairwise.cons ?_ (ih h.2)
      intro c hc
      rcases List.mem_cons.mp ((sortInsert_perm compareFn a l).mem_iff.mp hc) with rfl | hc
      · omega
      · exact h.1 c hc

theorem sortTasks_pairwise (x : List Task) :
    (sortTasks x).Pairwise (fun p q => p.start ≤ q.start) := by
  unfold sortTasks spread
  induction x with
  | nil => simp [arraySort]
  | cons a l ih => exact sortInsert_pairwise a _ ih

theorem sortInsert_filter (s : Int) (a : Task) (l : List Task) :
    (sortInsert compareFn a l).filter (fun t => decide (t.start = s)) =
      (a :: l).filter (fun t => decide (t.start = s)) := by
  induction l with
  | nil => simp [sortInsert]
  | cons b l ih =>
    simp only [sortInsert]
    split
    · rfl
    · rename_i hab
      rw [compareFn_nonpos] at hab
      rw [List.filter_cons, ih]
      by_cases ha : a.start = s
      · have hb : ¬ b.start = s := by omega
        simp [List.filter_cons, ha, hb]
      · simp [List.filter_cons, ha]

theorem sortTasks_filter (s : Int) (x : List Task) :
    (sortTasks x).filter (fun t => decide (t.start = s)) =
      x.filter (fun t => decide (t.start = s)) := by
  unfold sortTasks spread
  induction x with
  | nil => simp [arraySort]
  | cons a l ih =>
    simp only [arraySort]
    rw [sortInsert_filter, List.filter_cons, List.filter_cons, ih]

theorem arraySort_of_pairwise (l : List Task)
    (h : l.Pairwise (fun p q => p.start ≤ q.start)) : arraySort compareFn l = l := by
  induction l with
  | nil => rfl
  | cons a l ih =>
    rw [List.pairwise_cons] at h
    simp only [arraySort]
    rw [ih h.2]
    cases l with
    | nil => rfl
    | cons b l =>
      have hab : compareFn a b ≤ 0 := (compareFn_nonpos a b).mpr (h.1 b (List.mem_cons_self b l))
      simp [sortInsert, hab]

theorem stable_sorted_unique (y : List Task) :
    ∀ z : List Task, y.Pairwise (fun p q => p.start ≤ q.start) →
      z.Pairwise (fun p q => p.start ≤ q.start) →
      (∀ s : Int, y.filter (fun t => decide (t.start = s)) =
        z.filter (fun t => decide (t.start = s))) → y = z := by
  induction y with
  | nil =>
    intro z _ _ h
    cases z with
    | nil => rfl
    | cons b z =>
      have := h b.start
      simp [List.filter_cons] at this
  | cons a y ih =>
    intro z hy hz h
    cases z with
    | nil =>
      have := h a.start
      simp [List.filter_cons] at this
    | cons b z =>
      rw [List.pairwise_cons] at hy hz
      have hstart : a.start = b.start := by
        by_contra hne
        have hne2 : ¬ b.start = a.start := fun e => hne e.symm
        have h1 := h a.start
        have h2 := h b.start
        simp only [List.filter_cons, decide_True, if_true, hne, hne2, decide_False,
          Bool.false_eq_true, if_false] at h1 h2
        have ha : a ∈ z.filter (fun t => decide (t.start = a.start)) := by
          rw [← h1]
          exact List.mem_cons_self _ _
        have hb : b ∈ y.filter (fun t => decide (t.start = b.start)) := by
          rw [h2]
          exact List.mem_cons_self _ _
        have h3 := hz.1 a (List.mem_filter.mp ha).1
        have h4 := hy.1 b (List.mem_filter.mp hb).1
        omega
      have hhead := h a.start
      simp only [List.filter_cons, decide_True, if_true, hstart] at hhead
      have hab : a = b := (List.cons.inj hhead).1
      subst hab
      have htail : ∀ s : Int, y.filter (fun t => decide (t.start = s)) =
          z.filter (fun t => decide (t.start = s)) := by
        intro s
        have hs := h s
        by_cases e : a.start = s
        · simp only [List.filter_cons, e, decide_True, if_true] at hs
          exact (List.cons.inj hs).2
        · simpa only [List.filter_cons, e, decide_False, Bool.false_eq_true, if_false] using hs
      rw [ih z hy.2 hz.2 htail]

/-- The result of `sortTasks` is the only stable sorted rearrangement of the input: every
array that is non-decreasing by `start` and keeps, for each start value, the input order of
the tasks with that start, is the array `sortTasks` returns.  The embedding of the library
sort therefore does not depend on the sorting algorithm. -/
theorem sortTasks_unique (x y : List Task)
    (hy : y.Pairwise (fun p q => p.start ≤ q.start))
    (h : ∀ s : Int, y.filter (fun t => decide (t.start = s)) =
      x.filter (fun t => decide (t.start = s))) : y = sortTasks x :=
  stable_sorted_unique y (sortTasks x) hy (sortTasks_pairwise x)
    (fun s => (h s).trans (sortTasks_filter s x).symm)

/-! ## The conversion of numbers to strings: auxiliary facts -/

theorem shiftFor_small (fuel m : Nat) (h : m < 9007199254740992) : shiftFor fuel m = 0 := by
  cases fuel with
  | zero => rfl
  | succ f => simp [shiftFor, h]

theorem shiftFor_large (fuel : Nat) :
    ∀ m : Nat, 9007199254740992 ≤ m → 0 < fuel →
      1 ≤ shiftFor fuel m ∧ 4503599627370496 ≤ m / 2 ^ shiftFor fuel m := by
  induction fuel with
  | zero =>
    intro m _ h
    exact absurd h (Nat.lt_irrefl 0)
  | succ f ih =>
    intro m hm _
    have hnot : ¬ m < 9007199254740992 := Nat.not_lt.mpr hm
    simp only [shiftFor, if_neg hnot]
    refine ⟨Nat.le_add_left 1 _, ?_⟩
    rw [Nat.pow_succ, Nat.mul_comm, ← Nat.div_div_eq_div_mul]
    by_cases h2 : 9007199254740992 ≤ m / 2
    · by_cases hf : 0 < f
      · exact (ih (m / 2) h2 hf).2
      · have hf0 : f = 0 := by omega
        subst hf0
        simp only [shiftFor, pow_zero, Nat.div_one]
        omega
    · rw [shiftFor_small f (m / 2) (Nat.not_le.mp h2)]
      simp only [pow_zero, Nat.div_one]
      omega

theorem roundDouble_small (m : Nat) (h : m < 9007199254740992) : roundDouble m = m := by
  unfold roundDouble
  simp [shiftFor_small m m h, Nat.mod_one]

theorem roundDouble_large (m : Nat) (h : 9007199254740992 ≤ m) :
    9007199254740992 ≤ roundDouble m := by
  rcases shiftFor_large m m h (by omega) with ⟨he, hq⟩
  have hbase : 9007199254740992 ≤ m / 2 ^ shiftFor m m * 2 ^ shiftFor m m := by
    have h2 : 2 ^ 1 ≤ 2 ^ shiftFor m m := Nat.pow_le_pow_right (by decide) he
    calc 9007199254740992 = 4503599627370496 * 2 ^ 1 := by norm_num
      _ ≤ m / 2 ^ shiftFor m m * 2 ^ shiftFor m m := Nat.mul_le_mul hq h2
  have hstep : m / 2 ^ shiftFor m m * 2 ^ shiftFor m m ≤
      (m / 2 ^ shiftFor m m + 1) * 2 ^ shiftFor m m :=
    Nat.mul_le_mul_right _ (Nat.le_succ _)
  unfold roundDouble
  simp only
  split
  · exact hbase
  · split
    · exact Nat.le_trans hbase hstep
    · split
      · exact hbase
      · exact Nat.le_trans hbase hstep

theorem roundDouble_eq_small (v x : Nat) (hx : x < 9007199254740992)
    (h : roundDouble v = x) : v = x := by
  by_cases hv : v < 9007199254740992
  · rw [roundDouble_small v hv] at h
    exact h
  · have := roundDouble_large v (Nat.not_lt.mp hv)
    omega

theorem validAt_small (x e : Nat) (hx : x < 9007199254740992) (h : validAt x e = true) :
    x / 10 ^ e * 10 ^ e = x := by
  unfold validAt at h
  simp only [Bool.or_eq_true, Bool.and_eq_true, decide_eq_true_eq] at h
  rcases h with h | h
  · exact roundDouble_eq_small _ x hx h.2
  · have h1 := roundDouble_eq_small _ x hx h
    have h2 : x < (x / 10 ^ e + 1) * 10 ^ e := by
      have := Nat.lt_div_mul_add (a := x) (b := 10 ^ e) (pow_pos (by decide : 0 < 10) e)
      rw [Nat.add_mul, Nat.one_mul]
      exact this
    omega

theorem maxExp_small (x : Nat) (hx : x < 9007199254740992) (fuel : Nat) :
    ∀ e, x / 10 ^ e * 10 ^ e = x → x / 10 ^ maxExp x fuel e * 10 ^ maxExp x fuel e = x := by
  induction fuel with
  | zero =>
    intro e h
    exact h
  | succ f ih =>
    intro e h
    simp only [maxExp]
    split
    · rename_i hv
      exact ih (e + 1) (validAt_small x (e + 1) hx hv)
    · exact h

theorem chooseDigits_small (x e : Nat) (hx : x < 9007199254740992) (hpos : 0 < x)
    (h : x / 10 ^ e * 10 ^ e = x) : chooseDigits x e = x / 10 ^ e := by
  have hlo : 1 ≤ x / 10 ^ e := by
    rcases Nat.eq_zero_or_pos (x / 10 ^ e) with h0 | h0
    · rw [h0, Nat.zero_mul] at h
      omega
    · exact h0
  have hr : roundDouble (x / 10 ^ e * 10 ^ e) = x := by
    rw [h]
    exact roundDouble_small x hx
  have hhi : ¬ roundDouble ((x / 10 ^ e + 1) * 10 ^ e) = x := by
    intro h1
    have h2 := roundDouble_eq_small _ x hx h1
    rw [Nat.add_mul, Nat.one_mul, h] at h2
    have : 0 < 10 ^ e := pow_pos (by decide : 0 < 10) e
    omega
  unfold chooseDigits
  simp [hlo, hr, hhi]

theorem toDigitsCore_append (fuel : Nat) :
    ∀ (n : Nat) (ds : List Char),
      Nat.toDigitsCore 10 fuel n ds = Nat.toDigitsCore 10 fuel n [] ++ ds := by
  induction fuel with
  | zero =>
    intro n ds
    simp [Nat.toDigitsCore]
  | succ f ih =>
    intro n ds
    simp only [Nat.toDigitsCore]
    split
    · rfl
    · rw [ih (n / 10) ((n % 10).digitChar :: ds), ih (n / 10) [(n % 10).digitChar]]
      simp

theorem toDigitsCore_fuel (f1 : Nat) :
    ∀ (f2 n : Nat) (ds : List Char), n < f1 → n < f2 →
      Nat.toDigitsCore 10 f1 n ds = Nat.toDigitsCore 10 f2 n ds := by
  induction f1 with
  | zero =>
    intro f2 n ds h1 _
    exact absurd h1 (Nat.not_lt_zero n)
  | succ f ih =>
    intro f2 n ds h1 h2
    cases f2 with
    | zero => exact absurd h2 (Nat.not_lt_zero n)
    | succ g =>
      simp only [Nat.toDigitsCore]
      split
      · rfl
      · rename_i hne
        have hlt : n / 10 < n := Nat.div_lt_self (by omega) (by decide)
        exact ih g (n / 10) _ (by omega) (by omega)

theorem toDigits_mul_ten (m : Nat) (hm : 0 < m) :
    Nat.toDigits 10 (m * 10) = Nat.toDigits 10 m ++ ['0'] := by
  unfold Nat.toDigits
  have h1 : m * 10 / 10 = m := Nat.mul_div_cancel m (by decide)
  have h2 : m * 10 % 10 = 0 := Nat.mul_mod_left m 10
  have hne : ¬ m = 0 := by omega
  rw [Nat.toDigitsCore]
  simp only [h1, h2, if_neg hne]
  rw [toDigitsCore_append, toDigitsCore_fuel (m * 10) (m + 1) m [] (by omega) (by omega)]
  rfl

theorem repr_mul_pow_ten (s e : Nat) (hs : 0 < s) :
    toString (s * 10 ^ e) = toString s ++ String.mk (List.replicate e '0') := by
  induction e with
  | zero =>
    simp only [pow_zero, Nat.mul_one, List.replicate_zero]
    exact (String.append_empty _).symm
  | succ e ih =>
    have hpos : 0 < s * 10 ^ e := Nat.mul_pos hs (pow_pos (by decide) e)
    have hstep : toString (s * 10 ^ e * 10) = toString (s * 10 ^ e) ++ String.mk ['0'] := by
      show (Nat.toDigits 10 (s * 10 ^ e * 10)).asString =
        (Nat.toDigits 10 (s * 10 ^ e)).asString ++ String.mk ['0']
      rw [toDigits_mul_ten _ hpos]
      rfl
    rw [Nat.pow_succ, ← Nat.mul_assoc, hstep, ih, List.replicate_succ', String.append_assoc]
    rfl

theorem natToString_small (x : Nat) (hx : x < 9007199254740992) :
    natToString x = toString x := by
  unfold natToString
  by_cases h0 : x = 0
  · subst h0
    rfl
  · have hpos : 0 < x := Nat.pos_of_ne_zero h0
    simp only [if_neg h0, roundDouble_small x hx]
    have hdiv := maxExp_small x hx x 0 (by simp)
    have hs := chooseDigits_small x (maxExp x x 0) hx hpos hdiv
    have hspos : 0 < x / 10 ^ maxExp x x 0 := by
      rcases Nat.eq_zero_or_pos (x / 10 ^ maxExp x x 0) with h1 | h1
      · rw [h1, Nat.zero_mul] at hdiv
        omega
      · exact h1
    rw [hs, hdiv]
    have hlt : x < 10 ^ 21 := by
      have : (9007199254740992 : Nat) < 10 ^ 21 := by norm_num
      omega
    rw [if_pos hlt, ← repr_mul_pow_ten _ _ hspos, hdiv]

theorem numberToString_small (n : Int) (hn : n.natAbs < 2 ^ 53) :
    numberToString n = toString n := by
  have h53 : (2 : Nat) ^ 53 = 9007199254740992 := by norm_num
  rw [h53] at hn
  cases n with
  | ofNat m => exact natToString_small m hn
  | negSucc m =>
    show "-" ++ natToString (m + 1) = "-" ++ toString (m + 1)
    rw [natToString_small (m + 1) hn]

/-! ## The scan of `detectOverlaps`: auxiliary facts -/

theorem pairAt_eq_some (s : List Task) (i : Nat) (A B : Task) :
    pairAt s i = some (A, B) ↔ s[i]? = some A ∧ s[i + 1]? = some B := by
  unfold pairAt
  split
  · rename_i c n hc hn
    simp [hc, hn]
  · rename_i h
    constructor
    · intro h0
      exact absurd h0 (by simp)
    · rintro ⟨hA, hB⟩
      exact absurd hB (h A B hA)

theorem loopBody_eq (s : List Task) (acc : List ConflictRecord) (i : Nat) :
    loopBody s acc i =
      acc ++ (((pairAt s i).toList.filter conflicts).map (fun p => conflictRecord p.1 p.2)) := by
  unfold loopBody pairAt conflicts
  split
  · split <;> simp [*]
  · simp

theorem foldl_loopBody (s : List Task) (l : List Nat) (acc : List ConflictRecord) :
    l.foldl (loopBody s) acc =
      acc ++ (((l.filterMap (pairAt s)).filter conflicts).map
        (fun p => conflictRecord p.1 p.2)) := by
  induction l generalizing acc with
  | nil => simp
  | cons i l ih =>
    rw [List.foldl_cons, ih, loopBody_eq]
    cases h : pairAt s i with
    | none => simp [List.filterMap_cons, h]
    | some p => simp [List.filterMap_cons, h, List.filter_cons]; split <;> simp

theorem pairAt_cons_succ (a : Task) (s : List Task) (i : Nat) :
    pairAt (a :: s) (i + 1) = pairAt s i := by
  simp [pairAt]

theorem filterMap_pairAt_range (s : List Task) :
    (List.range (s.length - 1)).filterMap (pairAt s) = s.zip s.tail := by
  induction s with
  | nil => simp
  | cons a s ih =>
    cases s with
    | nil => simp
    | cons b s =>
      have hlen : (a :: b :: s).length - 1 = ((b :: s).length - 1) + 1 := by simp
      rw [hlen, List.range_succ_eq_map, List.filterMap_cons, List.filterMap_map]
      have hfun : pairAt (a :: b :: s) ∘ Nat.succ = pairAt (b :: s) := by
        funext i
        exact pairAt_cons_succ a (b :: s) i
      rw [hfun, ih]
      simp [pairAt]

theorem detectOverlaps_eq (x : List Task) :
    detectOverlaps x =
      (((sortTasks x).zip (sortTasks x).tail).filter conflicts).map
        (fun p => conflictRecord p.1 p.2) := by
  unfold detectOverlaps
  simp only [foldl_loopBody, filterMap_pairAt_range, List.nil_append]

theorem mem_zip_tail (s : List Task) (i : Nat) (A B : Task)
    (hA : s[i]? = some A) (hB : s[i + 1]? = some B) : (A, B) ∈ s.zip s.tail := by
  rw [← filterMap_pairAt_range, List.mem_filterMap]
  refine ⟨i, ?_, (pairAt_eq_some s i A B).mpr ⟨hA, hB⟩⟩
  rw [List.mem_range]
  have := (List.getElem?_eq_some_iff.mp hB).1
  omega

theorem recordAt_eq_some (s : List Task) (i : Nat) (r : ConflictRecord) :
    recordAt s i = some r ↔
      ∃ A B, s[i]? = some A ∧ s[i + 1]? = some B ∧ B.start < A.end_ ∧
        r = conflictRecord A B := by
  unfold recordAt
  constructor
  · intro h
    rcases Option.bind_eq_some.mp h with ⟨⟨A, B⟩, hp, hr⟩
    rw [pairAt_eq_some] at hp
    by_cases hc : conflicts (A, B) = true
    · rw [if_pos hc] at hr
      have hlt : B.start < A.end_ := by simpa [conflicts] using hc
      exact ⟨A, B, hp.1, hp.2, hlt, (Option.some.inj hr).symm⟩
    · rw [if_neg hc] at hr
      exact absurd hr (by simp)
  · rintro ⟨A, B, hA, hB, hlt, rfl⟩
    have hp : pairAt s i = some (A, B) := (pairAt_eq_some s i A B).mpr ⟨hA, hB⟩
    have hc : conflicts (A, B) = true := by simpa [conflicts] using hlt
    simp [hp, hc]

theorem filterMap_recordAt (s : List Task) (l : List Nat) :
    l.filterMap (recordAt s) =
      ((l.filterMap (pairAt s)).filter conflicts).map (fun p => conflictRecord p.1 p.2) := by
  induction l with
  | nil => simp
  | cons i l ih =>
    rw [List.filterMap_cons, List.filterMap_cons, ih]
    unfold recordAt
    cases h : pairAt s i with
    | none => simp
    | some p =>
      by_cases hc : conflicts p = true
      · simp [hc, List.filter_cons]
      · simp [hc, List.filter_cons]

theorem detectOverlaps_eq_filterMap (x : List Task) :
    detectOverlaps x =
      (List.range ((sortTasks x).length - 1)).filterMap (recordAt (sortTasks x)) := by
  unfold detectOverlaps
  simp only [foldl_loopBody, filterMap_recordAt, List.nil_append]

theorem forall₂_filterMap_filter {β : Type} (f : Nat → Option β) (l : List Nat) :
    List.Forall₂ (fun r i => f i = some r) (l.filterMap f)
      (l.filter (fun i => (f i).isSome)) := by
  induction l with
  | nil => simp
  | cons i l ih =>
    cases h : f i with
    | none => simpa [List.filterMap_cons, List.filter_cons, h] using ih
    | some r =>
      simp only [List.filterMap_cons, List.filter_cons, h, Option.isSome_some, if_true]
      exact List.Forall₂.cons h ih

/-! ## Grouping: auxiliary facts -/

theorem getOwn_setOwn (groups : Groups) (key : String) (v : List Task) (k : String) :
    getOwn (setOwn groups key v) k = if k = key then some v else getOwn groups k := by
  induction groups with
  | nil =>
    by_cases h : k = key
    · simp [setOwn, getOwn, h]
    · have h2 : ¬ key = k := fun e => h e.symm
      simp [setOwn, getOwn, h, h2]
  | cons b rest ih =>
    obtain ⟨k0, w⟩ := b
    simp only [setOwn]
    by_cases h0 : k0 = key
    · subst h0
      by_cases h : k = k0
      · subst h
        simp [getOwn]
      · have h2 : ¬ k0 = k := fun e => h e.symm
        simp [getOwn, h, h2]
    · simp only [if_neg h0, getOwn, ih]
      by_cases h1 : k0 = k
      · have h2 : ¬ k = key := fun e => h0 (h1.trans e)
        simp [h1, h2]
      · simp [h1]

theorem initialGroups_bucketsOf : BucketsOf initialGroups [] := by
  intro k
  by_cases h1 : "High" = k
  · subst h1
    simp [initialGroups, getOwn, canonicalKeys]
  · by_cases h2 : "Medium" = k
    · subst h2
      simp [initialGroups, getOwn, canonicalKeys]
    · by_cases h3 : "Low" = k
      · subst h3
        simp [initialGroups, getOwn, canonicalKeys]
      · have e1 : ¬ k = "High" := fun e => h1 e.symm
        have e2 : ¬ k = "Medium" := fun e => h2 e.symm
        have e3 : ¬ k = "Low" := fun e => h3 e.symm
        simp [initialGroups, getOwn, canonicalKeys, h1, h2, h3, e1, e2, e3]

theorem bucketsOf_step (groups : Groups) (done : List Task) (task : Task) (v : List Task)
    (h : BucketsOf groups done)
    (hv : v = done.filter (fun t => decide (t.priority = task.priority)) ++ [task]) :
    BucketsOf (setOwn groups task.priority v) (done ++ [task]) := by
  intro k
  rw [getOwn_setOwn]
  by_cases hk : k = task.priority
  · subst hk
    simp [hv, List.filter_append]
  · have hk2 : ¬ task.priority = k := fun e => hk e.symm
    rw [if_neg hk, h k]
    simp [List.filter_append, List.filter_cons, hk, hk2]

theorem forEachBody_ok (groups : Groups) (done : List Task) (task : Task)
    (h : BucketsOf groups done) (hp : task.priority ∉ objectPrototypeKeys) :
    ∃ groups1, forEachBody groups task = Except.ok groups1 ∧
      BucketsOf groups1 (done ++ [task]) := by
  unfold forEachBody getProperty
  have hk := h task.priority
  split at hk
  · rw [hk]
    exact ⟨_, rfl, bucketsOf_step groups done task _ h rfl⟩
  · rename_i hnot
    rw [hk]
    simp only [if_neg hp]
    refine ⟨_, rfl, bucketsOf_step groups done task _ h ?_⟩
    have hnone : done.filter (fun t => decide (t.priority = task.priority)) = [] := by
      rw [List.filter_eq_nil_iff]
      intro t ht
      have : t.priority ≠ task.priority := by
        intro e
        exact hnot (Or.inr (List.mem_map.mpr ⟨t, ht, e⟩))
      simpa using this
    rw [hnone]
    rfl

theorem forEachBody_error (groups : Groups) (done : List Task) (task : Task)
    (h : BucketsOf groups done) (hd : ∀ t ∈ done, t.priority ∉ objectPrototypeKeys)
    (hp : task.priority ∈ objectPrototypeKeys) :
    forEachBody groups task =
      Except.error (JsError.typeError "groups[task.priority].push is not a function") := by
  unfold forEachBody getProperty
  have hk := h task.priority
  have hnot : ¬ (task.priority ∈ canonicalKeys ∨ task.priority ∈ done.map Task.priority) := by
    rintro (hc | hm)
    · revert hp
      simp only [canonicalKeys, List.mem_cons, List.mem_singleton, List.not_mem_nil,
        or_false] at hc
      rcases hc with e | e | e <;> rw [e] <;> decide
    · rcases List.mem_map.mp hm with ⟨t, ht, e⟩
      exact hd t ht (e ▸ hp)
  rw [if_neg hnot] at hk
  rw [hk]
  simp only [if_pos hp]

theorem foldlM_forEachBody_ok (x : List Task) :
    ∀ (groups : Groups) (done : List Task), BucketsOf groups done →
      (∀ t ∈ x, t.priority ∉ objectPrototypeKeys) →
      ∃ groups1, x.foldlM forEachBody groups = Except.ok groups1 ∧
        BucketsOf groups1 (done ++ x) := by
  induction x with
  | nil =>
    intro groups done h _
    exact ⟨groups, rfl, by simpa using h⟩
  | cons task x ih =>
    intro groups done h hx
    rcases forEachBody_ok groups done task h (hx task (List.mem_cons_self _ _)) with
      ⟨g1, hg1, hb1⟩
    rcases ih g1 (done ++ [task]) hb1 (fun t ht => hx t (List.mem_cons_of_mem _ ht)) with
      ⟨g2, hg2, hb2⟩
    refine ⟨g2, ?_, by simpa using hb2⟩
    rw [List.foldlM_cons, hg1]
    exact hg2

theorem foldlM_forEachBody_error (x : List Task) :
    ∀ (groups : Groups) (done : List Task), BucketsOf groups done →
      (∀ t ∈ done, t.priority ∉ objectPrototypeKeys) →
      (∃ t ∈ x, t.priority ∈ objectPrototypeKeys) →
      x.foldlM forEachBody groups =
        Except.error (JsError.typeError "groups[task.priority].push is not a function") := by
  induction x with
  | nil =>
    intro groups done _ _ hx
    rcases hx with ⟨t, ht, _⟩
    exact absurd ht (List.not_mem_nil t)
  | cons task x ih =>
    intro groups done h hd hx
    rw [List.foldlM_cons]
    by_cases hp : task.priority ∈ objectPrototypeKeys
    · rw [forEachBody_error groups done task h hd hp]
      rfl
    · rcases forEachBody_ok groups done task h hp with ⟨g1, hg1, hb1⟩
      rw [hg1]
      refine ih g1 (done ++ [task]) hb1 ?_ ?_
      · intro t ht
        rcases List.mem_append.mp ht with ht | ht
        · exact hd t ht
        · rw [List.mem_singleton] at ht
          exact ht ▸ hp
      · rcases hx with ⟨t, ht, hbad⟩
        rcases List.mem_cons.mp ht with e | ht
        · exact absurd (e ▸ hbad) hp
        · exact ⟨t, ht, hbad⟩

/-- On inputs none of whose priorities is a property name inherited from `Object.prototype`,
`groupTasksByPriority` returns a mapping whose own keys are the canonical keys and the
priorities of the input, each bound to the tasks of that priority in input order. -/
theorem groupTasksByPriority_ok (x : List Task)
    (hx : ∀ t ∈ x, t.priority ∉ objectPrototypeKeys) :
    ∃ groups, groupTasksByPriority x = Except.ok groups ∧ BucketsOf groups x := by
  rcases foldlM_forEachBody_ok x initialGroups [] initialGroups_bucketsOf hx with ⟨g, hg, hb⟩
  exact ⟨g, hg, by simpa using hb⟩

/-- On inputs with a priority that is a property name inherited from `Object.prototype`,
`groupTasksByPriority` throws. -/
theorem groupTasksByPriority_error (x : List Task)
    (hx : ∃ t ∈ x, t.priority ∈ objectPrototypeKeys) :
    groupTasksByPriority x =
      Except.error (JsError.typeError "groups[task.priority].push is not a function") :=
  foldlM_forEachBody_error x initialGroups [] initialGroups_bucketsOf
    (fun t ht => absurd ht (List.not_mem_nil t)) hx

theorem getOwn_eq_none_iff (groups : Groups) (k : String) :
    getOwn groups k = none ↔ k ∉ groups.map Prod.fst := by
  induction groups with
  | nil => simp [getOwn]
  | cons b rest ih =>
    obtain ⟨k0, w⟩ := b
    by_cases h : k0 = k
    · simp [getOwn, h]
    · have h2 : ¬ k = k0 := fun e => h e.symm
      simp [getOwn, h, h2, ih]

theorem setOwn_of_some (groups : Groups) (k : String) (ts v : List Task)
    (h : getOwn groups k = some ts) :
    (setOwn groups k v).map Prod.fst = groups.map Prod.fst ∧
      ∀ t, v = ts ++ [t] →
        ((setOwn groups k v).flatMap Prod.snd).Perm (groups.flatMap Prod.snd ++ [t]) := by
  induction groups with
  | nil => simp [getOwn] at h
  | cons b rest ih =>
    obtain ⟨k0, w⟩ := b
    by_cases h0 : k0 = k
    · simp only [getOwn, if_pos h0] at h
      have hw : w = ts := Option.some.inj h
      subst hw
      refine ⟨by simp [setOwn, h0], ?_⟩
      intro t hv
      subst hv
      simp only [setOwn, if_pos h0, List.flatMap_cons, List.append_assoc]
      exact List.Perm.append_left w List.perm_append_comm
    · simp only [getOwn, if_neg h0] at h
      rcases ih h with ⟨ih1, ih2⟩
      refine ⟨by simp [setOwn, h0, ih1], ?_⟩
      intro t hv
      simp only [setOwn, if_neg h0, List.flatMap_cons, List.append_assoc]
      exact List.Perm.append_left w (ih2 t hv)

theorem setOwn_of_none (groups : Groups) (k : String) (v : List Task)
    (h : getOwn groups k = none) : setOwn groups k v = groups ++ [(k, v)] := by
  induction groups with
  | nil => rfl
  | cons b rest ih =>
    obtain ⟨k0, w⟩ := b
    by_cases h0 : k0 = k
    · simp [getOwn, h0] at h
    · simp only [getOwn, if_neg h0] at h
      simp [setOwn, h0, ih h]

theorem forEachBody_partition (groups groups1 : Groups) (task : Task)
    (h : forEachBody groups task = Except.ok groups1)
    (hn : (groups.map Prod.fst).Nodup) :
    (groups1.flatMap Prod.snd).Perm (groups.flatMap Prod.snd ++ [task]) ∧
      (groups1.map Prod.fst).Nodup := by
  unfold forEachBody getProperty at h
  cases hk : getOwn groups task.priority with
  | some ts =>
    simp only [hk] at h
    have hg : groups1 = setOwn groups task.priority (ts ++ [task]) :=
      (Except.ok.inj h).symm
    rcases setOwn_of_some groups task.priority ts (ts ++ [task]) hk with ⟨h1, h2⟩
    rw [hg]
    exact ⟨h2 task rfl, by rw [h1]; exact hn⟩
  | none =>
    simp only [hk] at h
    by_cases hp : task.priority ∈ objectPrototypeKeys
    · simp only [if_pos hp] at h
      exact absurd h (by simp)
    · simp only [if_neg hp] at h
      have hg : groups1 = setOwn groups task.priority [task] := (Except.ok.inj h).symm
      rw [hg, setOwn_of_none groups task.priority [task] hk]
      refine ⟨by simp, ?_⟩
      rw [List.map_append, List.nodup_append]
      refine ⟨hn, by simp, ?_⟩
      intro a ha hb
      simp only [List.map_cons, List.map_nil, List.mem_singleton] at hb
      exact (getOwn_eq_none_iff groups task.priority).mp hk (hb ▸ ha)

theorem foldlM_forEachBody_partition (x : List Task) :
    ∀ (groups groups1 : Groups), x.foldlM forEachBody groups = Except.ok groups1 →
      (groups.map Prod.fst).Nodup →
      (groups1.flatMap Prod.snd).Perm (groups.flatMap Prod.snd ++ x) ∧
        (groups1.map Prod.fst).Nodup := by
  induction x with
  | nil =>
    intro groups groups1 h hn
    have hg : groups = groups1 := Except.ok.inj h
    subst hg
    exact ⟨by simp, hn⟩
  | cons task x ih =>
    intro groups groups1 h hn
    rw [List.foldlM_cons] at h
    cases hstep : forEachBody groups task with
    | error e =>
      rw [hstep] at h
      exact absurd h (by intro h0; cases h0)
    | ok g1 =>
      rw [hstep] at h
      rcases forEachBody_partition groups g1 task hstep hn with ⟨hp1, hn1⟩
      rcases ih g1 groups1 h hn1 with ⟨hp2, hn2⟩
      refine ⟨hp2.trans ?_, hn2⟩
      have := List.Perm.append_right x hp1
      simpa using this

/-- Whenever `groupTasksByPriority` returns a mapping, its buckets partition the input: the
keys are distinct, the buckets taken together are a permutation of the input, and the bucket
lengths add up to the length of the input. -/
theorem groupTasksByPriority_partition (x : List Task) (groups : Groups)
    (h : groupTasksByPriority x = Except.ok groups) :
    (groups.map Prod.fst).Nodup ∧ (groups.flatMap Prod.snd).Perm x ∧
      (groups.map (fun b => b.2.length)).sum = x.length := by
  rcases foldlM_forEachBody_partition x initialGroups groups h (by decide) with ⟨hp, hn⟩
  have hp2 : (groups.flatMap Prod.snd).Perm x := by simpa [initialGroups] using hp
  refine ⟨hn, hp2, ?_⟩
  rw [← hp2.length_eq, List.length_flatMap]
  rfl

/-! ## The operations: main results -/

/-- C1: the scan of `detectOverlaps` reports exactly the adjacent pairs `(A, B)` of the
sorted array with `B.start < A.end_`: its result is the list of records of those pairs, the
iteration at a pair pushes the pair's record if and only if the strict inequality holds, a
pair that merely touches pushes nothing, and the number of records is the number of adjacent
pairs satisfying the inequality. -/
theorem detectOverlaps_adjacent_iff (x : List Task) :
    detectOverlaps x =
        (((sortTasks x).zip (sortTasks x).tail).filter
          (fun p => decide (p.2.start < p.1.end_))).map (fun p => conflictRecord p.1 p.2) ∧
      (∀ i A B, (sortTasks x)[i]? = some A → (sortTasks x)[i + 1]? = some B →
        ∀ overlaps, (loopBody (sortTasks x) overlaps i = overlaps ++ [conflictRecord A B] ↔
            B.start < A.end_) ∧
          (loopBody (sortTasks x) overlaps i = overlaps ↔ ¬ B.start < A.end_)) ∧
      (∀ i A B, (sortTasks x)[i]? = some A → (sortTasks x)[i + 1]? = some B →
        B.start < A.end_ → conflictRecord A B ∈ detectOverlaps x) ∧
      (∀ i A B, (sortTasks x)[i]? = some A → (sortTasks x)[i + 1]? = some B →
        B.start = A.end_ → ∀ overlaps, loopBody (sortTasks x) overlaps i = overlaps) ∧
      (detectOverlaps x).length =
        ((sortTasks x).zip (sortTasks x).tail).countP
          (fun p => decide (p.2.start < p.1.end_)) := by
  have hbody : ∀ i A B, (sortTasks x)[i]? = some A → (sortTasks x)[i + 1]? = some B →
      ∀ overlaps, loopBody (sortTasks x) overlaps i =
        if B.start < A.end_ then overlaps ++ [conflictRecord A B] else overlaps := by
    intro i A B hA hB overlaps
    simp [loopBody, hA, hB]
  refine ⟨detectOverlaps_eq x, ?_, ?_, ?_, ?_⟩
  · intro i A B hA hB overlaps
    rw [hbody i A B hA hB overlaps]
    by_cases h : B.start < A.end_
    · simp [h]
    · simp [h]
  · intro i A B hA hB hlt
    rw [detectOverlaps_eq, List.mem_map]
    refine ⟨(A, B), ?_, rfl⟩
    rw [List.mem_filter]
    exact ⟨mem_zip_tail _ i A B hA hB, by simpa [conflicts] using hlt⟩
  · intro i A B hA hB heq overlaps
    rw [hbody i A B hA hB overlaps, if_neg (by omega)]
  · rw [detectOverlaps_eq, List.length_map, List.countP_eq_length_filter]
    rfl

/-- C2: the result of `sortTasks` is ordered non-decreasing by `start`: the task at an
earlier position never starts later than the task at a later position. -/
theorem sortTasks_sorted (x : List Task) (i j : Nat) (hij : i < j)
    (hj : j < (sortTasks x).length) :
    ((sortTasks x).get ⟨i, Nat.lt_trans hij hj⟩).start ≤ ((sortTasks x).get ⟨j, hj⟩).start := by
  exact List.pairwise_iff_get.mp (sortTasks_pairwise x) ⟨i, Nat.lt_trans hij hj⟩ ⟨j, hj⟩ hij

/-- Witness of C2 on the sample data given in reverse order. -/
theorem sortTasks_sorted_witness :
    ((sortTasks tasks.reverse).get ⟨0, by decide⟩).start ≤
      ((sortTasks tasks.reverse).get ⟨1, by decide⟩).start :=
  sortTasks_sorted tasks.reverse 0 1 (by decide) (by decide)

/-- C3: the result of `sortTasks` is a permutation of its input: the same tasks with the
same multiplicities, and therefore the same length. -/
theorem sortTasks_perm (x : List Task) :
    (sortTasks x).Perm x ∧ (sortTasks x).length = x.length ∧
      (∀ t, (sortTasks x).count t = x.count t) := by
  have h : (sortTasks x).Perm x := arraySort_perm compareFn x
  exact ⟨h, h.length_eq, fun t => h.count_eq t⟩

/-- C4: `sortTasks` is stable: for every start value the tasks with that start appear in
the result in their input order, and of two tasks with equal start the one that comes first
in the input comes first in the result. -/
theorem sortTasks_stable (x : List Task) :
    (∀ s : Int, (sortTasks x).filter (fun t => decide (t.start = s)) =
        x.filter (fun t => decide (t.start = s))) ∧
      (∀ a b : Task, a.start = b.start → List.Sublist [a, b] x →
        List.Sublist [a, b] (sortTasks x)) := by
  refine ⟨fun s => sortTasks_filter s x, ?_⟩
  intro a b hab hsub
  have h1 := hsub.filter (fun t => decide (t.start = a.start))
  have h2 : [a, b].filter (fun t => decide (t.start = a.start)) = [a, b] := by
    simp [List.filter_cons, hab]
  rw [h2, ← sortTasks_filter] at h1
  exact h1.trans (List.filter_sublist _)

/-- C5: `sortTasks` is idempotent: sorting a sorted array returns it unchanged, position by
position. -/
theorem sortTasks_idempotent (x : List Task) : sortTasks (sortTasks x) = sortTasks x := by
  exact arraySort_of_pairwise (sortTasks x) (sortTasks_pairwise x)

/-- C9, as the claim states it, fails: on two tasks, the first of which ends at `2 ^ 59`, the
one record returned has the time `"1 - 576460752303423500"`, which is not the decimal
rendering of `1`, then `" - "`, then the decimal rendering of `576460752303423488`. -/
theorem detectOverlaps_time_not_decimal :
    detectOverlaps
        [Task.mk "Archive" 0 576460752303423488 "Low", Task.mk "Backup" 1 2 "Low"] =
      [ConflictRecord.mk "Conflict" "Archive" "Backup" "1 - 576460752303423500"] ∧
    ¬ ∀ r ∈ detectOverlaps
        [Task.mk "Archive" 0 576460752303423488 "Low", Task.mk "Backup" 1 2 "Low"],
      ∃ (i : Nat) (current next : Task),
        (sortTasks
          [Task.mk "Archive" 0 576460752303423488 "Low", Task.mk "Backup" 1 2 "Low"])[i]? =
          some current ∧
        (sortTasks
          [Task.mk "Archive" 0 576460752303423488 "Low", Task.mk "Backup" 1 2 "Low"])[i + 1]? =
          some next ∧
        r.time = toString next.start ++ " - " ++ toString current.end_ := by
  have hd : detectOverlaps
      [Task.mk "Archive" 0 576460752303423488 "Low", Task.mk "Backup" 1 2 "Low"] =
      [ConflictRecord.mk "Conflict" "Archive" "Backup" "1 - 576460752303423500"] := by
    decide
  have hs : sortTasks
      [Task.mk "Archive" 0 576460752303423488 "Low", Task.mk "Backup" 1 2 "Low"] =
      [Task.mk "Archive" 0 576460752303423488 "Low", Task.mk "Backup" 1 2 "Low"] := by
    decide
  refine ⟨hd, ?_⟩
  intro h
  rw [hd, hs] at h
  rcases h _ (List.mem_singleton.mpr rfl) with ⟨i, current, next, hc, hn, ht⟩
  have hi : i = 0 := by
    have := (List.getElem?_eq_some_iff.mp hn).1
    simp only [List.length_cons, List.length_nil] at this
    omega
  subst hi
  simp only [List.getElem?_cons_zero, List.getElem?_cons_succ, zero_add,
    Option.some.injEq] at hc hn
  subst hc
  subst hn
  revert ht
  decide

/-- C9, amended: every record returned by `detectOverlaps` comes from an adjacent pair
`(current, next)` of the sorted array with `next.start < current.end_`, and has status
`"Conflict"`, `task1` the name of `current`, `task2` the name of `next`, and `time` the
conversion to a string of `next.start`, then `" - "`, then the conversion to a string of
`current.end_`; when the two numbers are below `2 ^ 53` in absolute value, that is the
decimal rendering of `next.start`, then `" - "`, then the decimal rendering of
`current.end_`. -/
theorem detectOverlaps_record_fields (x : List Task) (r : ConflictRecord)
    (hr : r ∈ detectOverlaps x) :
    ∃ i current next, (sortTasks x)[i]? = some current ∧ (sortTasks x)[i + 1]? = some next ∧
      next.start < current.end_ ∧ r.status = "Conflict" ∧ r.task1 = current.name ∧
      r.task2 = next.name ∧
      r.time = numberToString next.start ++ " - " ++ numberToString current.end_ ∧
      (next.start.natAbs < 2 ^ 53 → current.end_.natAbs < 2 ^ 53 →
        r.time = toString next.start ++ " - " ++ toString current.end_) := by
  rw [detectOverlaps_eq_filterMap, List.mem_filterMap] at hr
  rcases hr with ⟨i, _, hi⟩
  rcases (recordAt_eq_some _ i r).mp hi with ⟨A, B, hA, hB, hlt, rfl⟩
  refine ⟨i, A, B, hA, hB, hlt, rfl, rfl, rfl, rfl, ?_⟩
  intro h1 h2
  show numberToString B.start ++ " - " ++ numberToString A.end_ = _
  rw [numberToString_small B.start h1, numberToString_small A.end_ h2]

/-- Witness of C9 on the sample data: the first record and its fields. -/
theorem detectOverlaps_record_fields_witness :
    ConflictRecord.mk "Conflict" "Email Team" "Client Meeting" "930 - 1000" ∈
        detectOverlaps tasks ∧
      ∃ i current next, (sortTasks tasks)[i]? = some current ∧
        (sortTasks tasks)[i + 1]? = some next ∧ next.start < current.end_ ∧
        "Conflict" = "Conflict" ∧ "Email Team" = current.name ∧
        "Client Meeting" = next.name ∧
        "930 - 1000" = numberToString next.start ++ " - " ++ numberToString current.end_ ∧
        (next.start.natAbs < 2 ^ 53 → current.end_.natAbs < 2 ^ 53 →
          "930 - 1000" = toString next.start ++ " - " ++ toString current.end_) :=
  ⟨by decide, detectOverlaps_record_fields tasks
    (ConflictRecord.mk "Conflict" "Email Team" "Client Meeting" "930 - 1000") (by decide)⟩

/-- C10: the records of `detectOverlaps` are in scan order: there is a strictly increasing
list of pair indices, holding exactly the indices of the adjacent pairs in conflict, whose
k-th index is the pair that produced the k-th record. -/
theorem detectOverlaps_scan_order (x : List Task) :
    ∃ idx : List Nat,
      idx.Pairwise (fun i j => i < j) ∧
      (∀ i, i ∈ idx ↔ ∃ A B, (sortTasks x)[i]? = some A ∧ (sortTasks x)[i + 1]? = some B ∧
        B.start < A.end_) ∧
      List.Forall₂
        (fun r i => ∃ A B, (sortTasks x)[i]? = some A ∧ (sortTasks x)[i + 1]? = some B ∧
          B.start < A.end_ ∧ r = conflictRecord A B)
        (detectOverlaps x) idx := by
  refine ⟨(List.range ((sortTasks x).length - 1)).filter
    (fun i => (recordAt (sortTasks x) i).isSome), ?_, ?_, ?_⟩
  · exact List.Pairwise.sublist (List.filter_sublist _) (List.pairwise_lt_range _)
  · intro i
    rw [List.mem_filter, List.mem_range, Option.isSome_iff_exists]
    constructor
    · rintro ⟨_, r, hr⟩
      rcases (recordAt_eq_some _ i r).mp hr with ⟨A, B, hA, hB, hlt, _⟩
      exact ⟨A, B, hA, hB, hlt⟩
    · rintro ⟨A, B, hA, hB, hlt⟩
      have hlen := (List.getElem?_eq_some_iff.mp hB).1
      exact ⟨by omega, conflictRecord A B,
        (recordAt_eq_some _ i _).mpr ⟨A, B, hA, hB, hlt, rfl⟩⟩
  · rw [detectOverlaps_eq_filterMap]
    refine List.Forall₂.imp ?_ (forall₂_filterMap_filter (recordAt (sortTasks x)) _)
    intro r i h
    exact (recordAt_eq_some _ i r).mp h

/-- C6: on the two-task input whose second task has priority `"constructor"`, the read
`groups["constructor"]` finds the inherited constructor function, `push` is called on it
and `groupTasksByPriority` throws: no mapping is returned, so no bucket holds either task
and the input is not partitioned. -/
theorem groupTasksByPriority_no_partition :
    groupTasksByPriority
        [Task.mk "Email Team" 900 1000 "High", Task.mk "Deploy" 1000 1100 "constructor"] =
      Except.error (JsError.typeError "groups[task.priority].push is not a function") ∧
    ¬ ∃ groups : Groups,
      groupTasksByPriority
          [Task.mk "Email Team" 900 1000 "High", Task.mk "Deploy" 1000 1100 "constructor"] =
        Except.ok groups ∧
      (groups.flatMap Prod.snd).Perm
        [Task.mk "Email Team" 900 1000 "High", Task.mk "Deploy" 1000 1100 "constructor"] := by
  have h : groupTasksByPriority
      [Task.mk "Email Team" 900 1000 "High", Task.mk "Deploy" 1000 1100 "constructor"] =
      Except.error (JsError.typeError "groups[task.priority].push is not a function") := rfl
  refine ⟨h, ?_⟩
  rintro ⟨groups, hg, _⟩
  rw [h] at hg
  cases hg

/-- C7: on the one-task input with priority `"valueOf"`, `groupTasksByPriority` throws
instead of returning a mapping with the keys `High`, `Medium`, `Low`, `valueOf`: there is no
returned mapping whose bucket at `valueOf` holds the task. -/
theorem groupTasksByPriority_no_bucket :
    groupTasksByPriority [Task.mk "Audit" 900 1000 "valueOf"] =
      Except.error (JsError.typeError "groups[task.priority].push is not a function") ∧
    ¬ ∃ groups : Groups,
      groupTasksByPriority [Task.mk "Audit" 900 1000 "valueOf"] = Except.ok groups ∧
      getOwn groups "valueOf" = some [Task.mk "Audit" 900 1000 "valueOf"] := by
  have h : groupTasksByPriority [Task.mk "Audit" 900 1000 "valueOf"] =
      Except.error (JsError.typeError "groups[task.priority].push is not a function") := rfl
  refine ⟨h, ?_⟩
  rintro ⟨groups, hg, _⟩
  rw [h] at hg
  cases hg

/-- C8: a task whose priority is `"constructor"` or `"toString"`, neither of them a
canonical key, makes `groupTasksByPriority` throw a type error, where an unknown label such
as `"Urgent"` gets a bucket of its own. -/
theorem groupTasksByPriority_inherited_throws :
    groupTasksByPriority [Task.mk "Deploy" 900 1000 "constructor"] =
      Except.error (JsError.typeError "groups[task.priority].push is not a function") ∧
    groupTasksByPriority [Task.mk "Deploy" 900 1000 "toString"] =
      Except.error (JsError.typeError "groups[task.priority].push is not a function") ∧
    groupTasksByPriority [Task.mk "Deploy" 900 1000 "Urgent"] =
      Except.ok [("High", []), ("Medium", []), ("Low", []),
        ("Urgent", [Task.mk "Deploy" 900 1000 "Urgent"])] :=
  ⟨rfl, rfl, rfl⟩

/-! ## Scenarios and the limits of the adjacent-pair scan -/

theorem pairwise_getElem? {R : Task → Task → Prop} (s : List Task) (h : s.Pairwise R)
    (i j : Nat) (a b : Task) (hij : i < j) (ha : s[i]? = some a) (hb : s[j]? = some b) :
    R a b := by
  rcases List.getElem?_eq_some_iff.mp ha with ⟨hi, rfl⟩
  rcases List.getElem?_eq_some_iff.mp hb with ⟨hj, rfl⟩
  exact List.pairwise_iff_getElem.mp h i j hi hj hij

/-- C11: on the six sample tasks `detectOverlaps` returns exactly two records, in this order:
Email Team with Client Meeting at `"930 - 1000"`, then Lunch with Project Sync at
`"1230 - 1300"`. -/
theorem detectOverlaps_sample :
    detectOverlaps tasks =
      [ ConflictRecord.mk "Conflict" "Email Team" "Client Meeting" "930 - 1000",
        ConflictRecord.mk "Conflict" "Lunch" "Project Sync" "1230 - 1300" ] := by
  decide

/-- C12, as the claim states it, fails: on the three tasks `T1` 900-1100, `T2` 1000-1020,
`T3` 1050-1200 no record pairs `T2` with `T3`. -/
theorem detectOverlaps_known_miss_no_T2_T3 :
    ¬ ∃ r ∈ detectOverlaps
        [ Task.mk "T1" 900 1100 "High", Task.mk "T2" 1000 1020 "High",
          Task.mk "T3" 1050 1200 "High" ],
      r.task1 = "T2" ∧ r.task2 = "T3" := by
  decide

/-- C12, amended: on the three tasks 900-1100, 1000-1020, 1050-1200, whatever their names
and priorities, `detectOverlaps` returns exactly one record, the conflict of the first task
with the second at `"1000 - 1100"`; the second and third do not conflict (1050 is not below
1020), and nothing is reported for the first and third, which do overlap (1050 is below
1100). -/
theorem detectOverlaps_known_miss (n1 n2 n3 p1 p2 p3 : String) :
    sortTasks [Task.mk n1 900 1100 p1, Task.mk n2 1000 1020 p2, Task.mk n3 1050 1200 p3] =
        [Task.mk n1 900 1100 p1, Task.mk n2 1000 1020 p2, Task.mk n3 1050 1200 p3] ∧
      detectOverlaps
          [Task.mk n1 900 1100 p1, Task.mk n2 1000 1020 p2, Task.mk n3 1050 1200 p3] =
        [ConflictRecord.mk "Conflict" n1 n2 "1000 - 1100"] ∧
      ¬ (Task.mk n3 1050 1200 p3).start < (Task.mk n2 1000 1020 p2).end_ ∧
      (Task.mk n3 1050 1200 p3).start < (Task.mk n1 900 1100 p1).end_ := by
  have hs : sortTasks
      [Task.mk n1 900 1100 p1, Task.mk n2 1000 1020 p2, Task.mk n3 1050 1200 p3] =
      [Task.mk n1 900 1100 p1, Task.mk n2 1000 1020 p2, Task.mk n3 1050 1200 p3] := by
    simp [sortTasks, spread, arraySort, sortInsert, compareFn]
  have ht : timeString 1000 1100 = "1000 - 1100" := by decide
  refine ⟨hs, ?_, by simp, by simp⟩
  rw [detectOverlaps_eq, hs]
  simp [conflicts, conflictRecord, ht]

/-- C13: on the empty task list `sortTasks` returns the empty list, `groupTasksByPriority`
returns the mapping with exactly the keys `High`, `Medium`, `Low`, each bound to the empty
list, and `detectOverlaps` returns the empty list; none of them throws. -/
theorem empty_input :
    sortTasks [] = [] ∧
      groupTasksByPriority [] = Except.ok [("High", []), ("Medium", []), ("Low", [])] ∧
      (∀ k : String, getOwn [("High", []), ("Medium", []), ("Low", [])] k =
        if k = "High" ∨ k = "Medium" ∨ k = "Low" then some [] else none) ∧
      detectOverlaps [] = [] := by
  refine ⟨rfl, rfl, ?_, rfl⟩
  intro k
  have h := initialGroups_bucketsOf k
  simpa [initialGroups, canonicalKeys] using h

/-- C14: there is a task list, every task of which has `start < end_` and a name of its own,
with two tasks that are not adjacent in sorted order and whose intervals intersect, for
which `detectOverlaps` returns no record naming the two. -/
theorem detectOverlaps_misses_nonadjacent :
    ∃ x : List Task, (∀ t ∈ x, t.start < t.end_) ∧ (x.map Task.name).Nodup ∧
      ∃ i j A B, i + 1 < j ∧ (sortTasks x)[i]? = some A ∧ (sortTasks x)[j]? = some B ∧
        B.start < A.end_ ∧ A.start < B.end_ ∧
        ∀ r ∈ detectOverlaps x,
          ¬ (r.task1 = A.name ∧ r.task2 = B.name) ∧
            ¬ (r.task1 = B.name ∧ r.task2 = A.name) := by
  refine ⟨[ Task.mk "Standup" 900 1100 "High", Task.mk "Call" 1000 1020 "Low",
    Task.mk "Review" 1050 1200 "Medium" ], by decide, by decide, 0, 2,
    Task.mk "Standup" 900 1100 "High", Task.mk "Review" 1050 1200 "Medium",
    by decide, by decide, by decide, by decide, by decide, by decide⟩

theorem later_start_ge (s : List Task) (hs : s.Pairwise (fun p q => p.start ≤ q.start))
    (i j : Nat) (B C : Task) (e : Int) (hB : s[i + 1]? = some B) (hC : s[j]? = some C)
    (hij : i < j) (h : B.start ≥ e) : C.start ≥ e := by
  by_cases hj : j = i + 1
  · subst hj
    rw [hB] at hC
    cases hC
    exact h
  · have hBC : B.start ≤ C.start := pairwise_getElem? s hs (i + 1) j B C (by omega) hB hC
    omega

theorem mem_zip_tail_iff (s : List Task) (A B : Task) :
    (A, B) ∈ s.zip s.tail ↔ ∃ i, s[i]? = some A ∧ s[i + 1]? = some B := by
  constructor
  · intro h
    rw [← filterMap_pairAt_range, List.mem_filterMap] at h
    rcases h with ⟨i, _, hi⟩
    exact ⟨i, (pairAt_eq_some s i A B).mp hi⟩
  · rintro ⟨i, hA, hB⟩
    exact mem_zip_tail s i A B hA hB

theorem detectOverlaps_eq_nil_iff (x : List Task) :
    detectOverlaps x = [] ↔
      ∀ i A B, (sortTasks x)[i]? = some A → (sortTasks x)[i + 1]? = some B →
        B.start ≥ A.end_ := by
  rw [detectOverlaps_eq, List.map_eq_nil_iff, List.filter_eq_nil_iff]
  constructor
  · intro h i A B hA hB
    have := h (A, B) (mem_zip_tail _ i A B hA hB)
    simpa [conflicts] using this
  · rintro h ⟨A, B⟩ hmem
    rcases (mem_zip_tail_iff _ A B).mp hmem with ⟨i, hA, hB⟩
    have := h i A B hA hB
    simpa [conflicts] using this

theorem pairwise_symm_iff_index {R : Task → Task → Prop} (hsymm : ∀ a b, R a b → R b a)
    (x : List Task) :
    x.Pairwise R ↔ ∀ (i j : Nat) (a b : Task), i ≠ j → x[i]? = some a → x[j]? = some b → R a b := by
  constructor
  · intro h i j a b hij ha hb
    rcases Nat.lt_or_gt_of_ne hij with hlt | hgt
    · exact pairwise_getElem? x h i j a b hlt ha hb
    · exact hsymm b a (pairwise_getElem? x h j i b a hgt hb ha)
  · intro h
    rw [List.pairwise_iff_getElem]
    intro i j hi hj hij
    exact h i j _ _ (by omega) (List.getElem?_eq_getElem hi) (List.getElem?_eq_getElem hj)

theorem perm_distinct_positions (s x : List Task) (hp : s.Perm x) (i k : Nat) (A B : Task)
    (hik : i ≠ k) (hA : s[i]? = some A) (hB : s[k]? = some B) :
    ∃ i1 j1 : Nat, i1 ≠ j1 ∧ x[i1]? = some A ∧ x[j1]? = some B := by
  by_contra hno
  have hsymm : ∀ a b : Task, ¬ ((a = A ∧ b = B) ∨ (a = B ∧ b = A)) →
      ¬ ((b = A ∧ a = B) ∨ (b = B ∧ a = A)) := by
    intro a b h
    rintro (⟨h1, h2⟩ | ⟨h1, h2⟩)
    · exact h (Or.inr ⟨h2, h1⟩)
    · exact h (Or.inl ⟨h2, h1⟩)
  have hx : x.Pairwise (fun a b => ¬ ((a = A ∧ b = B) ∨ (a = B ∧ b = A))) := by
    rw [pairwise_symm_iff_index hsymm]
    intro i1 j1 a b hne ha hb
    rintro (⟨rfl, rfl⟩ | ⟨rfl, rfl⟩)
    · exact hno ⟨i1, j1, hne, ha, hb⟩
    · exact hno ⟨j1, i1, fun e => hne e.symm, hb, ha⟩
  have hs := (List.Perm.pairwise_iff (fun {a b} h => hsymm a b h) hp).mpr hx
  exact (pairwise_symm_iff_index hsymm s).mp hs i k A B hik hA hB (Or.inl ⟨rfl, rfl⟩)

theorem filter_start_eq_of_perm (x y : List Task)
    (hd : x.Pairwise (fun a b => a.start ≠ b.start)) (hp : y.Perm x) (s : Int) :
    y.filter (fun t => decide (t.start = s)) = x.filter (fun t => decide (t.start = s)) := by
  have hperm := List.Perm.filter (fun t => decide (t.start = s)) hp
  have hsub : (x.filter (fun t => decide (t.start = s))).Pairwise
      (fun a b => a.start ≠ b.start) := hd.sublist (List.filter_sublist x)
  have hall : ∀ t ∈ x.filter (fun t => decide (t.start = s)), t.start = s := by
    intro t ht
    simpa using (List.mem_filter.mp ht).2
  generalize x.filter (fun t => decide (t.start = s)) = l at hperm hsub hall
  cases l with
  | nil => exact List.perm_nil.mp hperm
  | cons a l =>
    cases l with
    | nil => exact List.perm_singleton.mp hperm
    | cons b l =>
      exfalso
      rw [List.pairwise_cons] at hsub
      have h1 := hall a (List.mem_cons_self _ _)
      have h2 := hall b (List.mem_cons_of_mem _ (List.mem_cons_self _ _))
      exact hsub.1 b (List.mem_cons_self _ _) (h1.trans h2.symm)

/-- C16: in the sorted array, a task that does not overlap its immediate successor overlaps
no later task: if the successor starts at or after its end, so does every later task. -/
theorem no_overlap_with_successor_propagates (x : List Task) (i j : Nat) (A B C : Task)
    (hA : (sortTasks x)[i]? = some A) (hB : (sortTasks x)[i + 1]? = some B)
    (hC : (sortTasks x)[j]? = some C) (hij : i < j) (h : B.start ≥ A.end_) :
    C.start ≥ A.end_ := by
  have _ := hA
  exact later_start_ge (sortTasks x) (sortTasks_pairwise x) i j B C A.end_ hB hC hij h

/-- Witness of C16 on the sample data: Client Meeting ends at 1030, Code Review starts at
1100, and so Lunch starts no earlier than 1030. -/
theorem no_overlap_with_successor_propagates_witness :
    (Task.mk "Lunch" 1200 1300 "Low").start ≥ (Task.mk "Client Meeting" 930 1030 "High").end_ :=
  no_overlap_with_successor_propagates tasks 1 3 (Task.mk "Client Meeting" 930 1030 "High")
    (Task.mk "Code Review" 1100 1200 "Medium") (Task.mk "Lunch" 1200 1300 "Low")
    (by decide) (by decide) (by decide) (by decide) (by decide)

/-- C17, as the claim states it, fails: no input sorts to three tasks `T1`, `T2`, `T3` with
`T3` starting before `T1` ends while `T2` starts at or after the end of `T1`, because
`T3` starts no earlier than `T2`. -/
theorem no_silent_miss_with_disjoint_middle :
    ¬ ∃ (x : List Task) (T1 T2 T3 : Task), sortTasks x = [T1, T2, T3] ∧
      T3.start < T1.end_ ∧ T2.start ≥ T1.end_ ∧ T3.start ≥ T2.end_ := by
  rintro ⟨x, T1, T2, T3, hs, h13, h12, _⟩
  have hp := sortTasks_pairwise x
  rw [hs] at hp
  have h23 : T2.start ≤ T3.start := by
    simp only [List.pairwise_cons] at hp
    exact hp.2.1 T3 (List.mem_singleton.mpr rfl)
  omega

/-- C17, amended: there is a three-task input, sorted as `T1`, `T2`, `T3`, in which `T1` and
`T3` overlap under the strict rule and `T3` does not overlap `T2`, on which `detectOverlaps`
reports nothing for `T1` and `T3`; and in every three-task sorted array in which `T1` and
`T3` overlap, `T2` overlaps `T1`. -/
theorem silent_miss_needs_overlapping_middle :
    (∃ (x : List Task) (T1 T2 T3 : Task), sortTasks x = [T1, T2, T3] ∧
      (x.map Task.name).Nodup ∧ T3.start < T1.end_ ∧ T3.start ≥ T2.end_ ∧
      ∀ r ∈ detectOverlaps x, ¬ (r.task1 = T1.name ∧ r.task2 = T3.name) ∧
        ¬ (r.task1 = T3.name ∧ r.task2 = T1.name)) ∧
    (∀ (x : List Task) (T1 T2 T3 : Task), sortTasks x = [T1, T2, T3] →
      T3.start < T1.end_ → T2.start < T1.end_) := by
  constructor
  · exact ⟨[ Task.mk "Workshop" 1050 1200 "Low", Task.mk "Standup" 900 1100 "High",
      Task.mk "Call" 1000 1020 "Medium" ], Task.mk "Standup" 900 1100 "High",
      Task.mk "Call" 1000 1020 "Medium", Task.mk "Workshop" 1050 1200 "Low",
      by decide, by decide, by decide, by decide, by decide⟩
  · intro x T1 T2 T3 hs h13
    have hp := sortTasks_pairwise x
    rw [hs] at hp
    have h23 : T2.start ≤ T3.start := by
      simp only [List.pairwise_cons] at hp
      exact hp.2.1 T3 (List.mem_singleton.mpr rfl)
    omega

/-- C18: on a task list whose tasks all have `start < end_`, `detectOverlaps` returns the
empty list if and only if no two tasks at distinct positions of the input have intersecting
intervals. -/
theorem detectOverlaps_empty_iff (x : List Task) (hx : ∀ t ∈ x, t.start < t.end_) :
    detectOverlaps x = [] ↔
      ∀ (i j : Nat) (a b : Task), i ≠ j → x[i]? = some a → x[j]? = some b →
        ¬ (a.start < b.end_ ∧ b.start < a.end_) := by
  have hsymm : ∀ a b : Task, ¬ (a.start < b.end_ ∧ b.start < a.end_) →
      ¬ (b.start < a.end_ ∧ a.start < b.end_) := fun a b h h1 => h ⟨h1.2, h1.1⟩
  have hperm : (sortTasks x).Perm x := arraySort_perm compareFn x
  rw [← pairwise_symm_iff_index hsymm, ← List.Perm.pairwise_iff (fun {a b} h => hsymm a b h) hperm,
    detectOverlaps_eq_nil_iff]
  constructor
  · intro h
    rw [List.pairwise_iff_getElem]
    intro i j hi hj hij
    have hlen : i + 1 < (sortTasks x).length := by omega
    have hge := later_start_ge (sortTasks x) (sortTasks_pairwise x) i j
      ((sortTasks x)[i + 1]) ((sortTasks x)[j]) ((sortTasks x)[i]).end_
      (List.getElem?_eq_getElem hlen) (List.getElem?_eq_getElem hj) hij
      (h i _ _ (List.getElem?_eq_getElem hi) (List.getElem?_eq_getElem hlen))
    omega
  · intro h i A B hA hB
    have hR := pairwise_getElem? (sortTasks x) h i (i + 1) A B (by omega) hA hB
    have hle : A.start ≤ B.start :=
      pairwise_getElem? (sortTasks x) (sortTasks_pairwise x) i (i + 1) A B (by omega) hA hB
    have hBmem : B ∈ x := hperm.mem_iff.mp (List.getElem?_mem hB)
    have hBpos := hx B hBmem
    by_contra hlt
    exact hR ⟨by omega, by omega⟩

/-- Witness of C18 on two tasks that touch without intersecting. -/
theorem detectOverlaps_empty_iff_witness :
    detectOverlaps [Task.mk "Lunch" 1200 1300 "Low", Task.mk "Code Review" 1100 1200 "Medium"] =
        [] ↔
      ∀ (i j : Nat) (a b : Task), i ≠ j →
        [Task.mk "Lunch" 1200 1300 "Low", Task.mk "Code Review" 1100 1200 "Medium"][i]? =
          some a →
        [Task.mk "Lunch" 1200 1300 "Low", Task.mk "Code Review" 1100 1200 "Medium"][j]? =
          some b →
        ¬ (a.start < b.end_ ∧ b.start < a.end_) :=
  detectOverlaps_empty_iff
    [Task.mk "Lunch" 1200 1300 "Low", Task.mk "Code Review" 1100 1200 "Medium"] (by decide)

/-- C19: on a task list whose tasks all have `start < end_`, every record of
`detectOverlaps` names, as `task1` and `task2`, two tasks at distinct positions of the input
whose intervals intersect: the second starts strictly before the first ends, and the first
starts no later than the second. -/
theorem detectOverlaps_no_false_conflict (x : List Task) (hx : ∀ t ∈ x, t.start < t.end_)
    (r : ConflictRecord) (hr : r ∈ detectOverlaps x) :
    ∃ (i j : Nat) (a b : Task), i ≠ j ∧ x[i]? = some a ∧ x[j]? = some b ∧ r.task1 = a.name ∧
      r.task2 = b.name ∧ b.start < a.end_ ∧ a.start ≤ b.start ∧ a.start < b.end_ := by
  have hperm : (sortTasks x).Perm x := arraySort_perm compareFn x
  rw [detectOverlaps_eq_filterMap, List.mem_filterMap] at hr
  rcases hr with ⟨k, _, hk⟩
  rcases (recordAt_eq_some _ k r).mp hk with ⟨A, B, hA, hB, hlt, rfl⟩
  have hle : A.start ≤ B.start :=
    pairwise_getElem? (sortTasks x) (sortTasks_pairwise x) k (k + 1) A B (by omega) hA hB
  have hBpos := hx B (hperm.mem_iff.mp (List.getElem?_mem hB))
  rcases perm_distinct_positions (sortTasks x) x hperm k (k + 1) A B (by omega) hA hB with
    ⟨i, j, hij, hi, hj⟩
  exact ⟨i, j, A, B, hij, hi, hj, rfl, rfl, hlt, hle, by omega⟩

/-- Witness of C19 on the sample data: the record of Lunch and Project Sync. -/
theorem detectOverlaps_no_false_conflict_witness :
    ∃ (i j : Nat) (a b : Task), i ≠ j ∧ tasks[i]? = some a ∧ tasks[j]? = some b ∧ "Lunch" = a.name ∧
      "Project Sync" = b.name ∧ b.start < a.end_ ∧ a.start ≤ b.start ∧ a.start < b.end_ :=
  detectOverlaps_no_false_conflict tasks (by decide)
    (ConflictRecord.mk "Conflict" "Lunch" "Project Sync" "1230 - 1300") (by decide)

/-- C20: when the start values of the tasks are pairwise distinct, `detectOverlaps` returns
the same records in the same order on every permutation of the input. -/
theorem detectOverlaps_perm_invariant (x y : List Task)
    (hd : x.Pairwise (fun a b => a.start ≠ b.start)) (hp : y.Perm x) :
    detectOverlaps y = detectOverlaps x := by
  have hs : sortTasks y = sortTasks x :=
    sortTasks_unique x (sortTasks y) (sortTasks_pairwise y)
      (fun s => (sortTasks_filter s y).trans (filter_start_eq_of_perm x y hd hp s))
  rw [detectOverlaps_eq, detectOverlaps_eq, hs]

/-- Witness of C20 on the sample data and its reversal. -/
theorem detectOverlaps_perm_invariant_witness :
    detectOverlaps tasks.reverse = detectOverlaps tasks :=
  detectOverlaps_perm_invariant tasks tasks.reverse (by decide) (List.reverse_perm tasks)

/-! ## The heap: auxiliary facts -/

theorem readArray_write_ne (h : Heap) (r r1 : Ref) (v : List Task) (hne : r ≠ r1) :
    readArray (writeArray h r v) r1 = readArray h r1 := by
  simp [readArray, writeArray, List.getElem?_set_ne hne]

theorem readArray_write_eq (h : Heap) (r : Ref) (v : List Task) (hr : r < h.arrays.length) :
    readArray (writeArray h r v) r = v := by
  simp [readArray, writeArray, List.getElem?_set, hr]

theorem readArray_alloc_old (h : Heap) (a : List Task) (r : Ref) (hr : r < h.arrays.length) :
    readArray (allocArray h a).2 r = readArray h r := by
  simp [readArray, allocArray, List.getElem?_append_left hr]

theorem readArray_alloc_new (h : Heap) (a : List Task) :
    readArray (allocArray h a).2 (allocArray h a).1 = a := by
  simp [readArray, allocArray]

theorem length_alloc (h : Heap) (a : List Task) :
    (allocArray h a).2.arrays.length = h.arrays.length + 1 := by
  simp [allocArray]

theorem length_write (h : Heap) (r : Ref) (v : List Task) :
    (writeArray h r v).arrays.length = h.arrays.length := by
  simp [writeArray]

theorem preserves_refl (h : Heap) : Preserves h h :=
  ⟨Nat.le_refl _, fun _ _ => rfl⟩

theorem preserves_trans (h0 h1 h2 : Heap) (h01 : Preserves h0 h1) (h12 : Preserves h1 h2) :
    Preserves h0 h2 :=
  ⟨Nat.le_trans h01.1 h12.1, fun r hr =>
    (h12.2 r (Nat.lt_of_lt_of_le hr h01.1)).trans (h01.2 r hr)⟩

theorem preserves_alloc (h : Heap) (a : List Task) : Preserves h (allocArray h a).2 :=
  ⟨by rw [length_alloc]; omega, fun r hr => readArray_alloc_old h a r hr⟩

theorem preserves_write (h0 h : Heap) (r : Ref) (v : List Task) (hp : Preserves h0 h)
    (hr : h0.arrays.length ≤ r) : Preserves h0 (writeArray h r v) :=
  ⟨by rw [length_write]; exact hp.1, fun r1 hr1 =>
    (readArray_write_ne h r r1 v (Nat.ne_of_gt (Nat.lt_of_lt_of_le hr1 hr))).trans
      (hp.2 r1 hr1)⟩

theorem sortTasksHeap_spec (h : Heap) (taskList : Ref) :
    Preserves h (sortTasksHeap h taskList).2 ∧
      (sortTasksHeap h taskList).1 = h.arrays.length ∧
      readArray (sortTasksHeap h taskList).2 (sortTasksHeap h taskList).1 =
        sortTasks (readArray h taskList) := by
  unfold sortTasksHeap sortInPlace
  refine ⟨?_, rfl, ?_⟩
  · exact preserves_write h _ _ _ (preserves_alloc h _) (Nat.le_refl _)
  · simp only
    rw [readArray_write_eq _ _ _ (by rw [length_alloc]; exact Nat.lt_succ_self _)]
    have := readArray_alloc_new h (spread (readArray h taskList))
    rw [this]
    rfl

theorem detectOverlapsHeap_spec (h : Heap) (taskList : Ref) :
    Preserves h (detectOverlapsHeap h taskList).2 ∧
      (detectOverlapsHeap h taskList).1 = detectOverlaps (readArray h taskList) := by
  unfold detectOverlapsHeap
  refine ⟨(sortTasksHeap_spec h taskList).1, ?_⟩
  simp only
  rw [(sortTasksHeap_spec h taskList).2.2]
  rfl

theorem getOwn_readOut (h : Heap) (groups : GroupRefs) (key : String) :
    getOwn (readOut h groups) key = (getOwnRef groups key).map (readArray h) := by
  induction groups with
  | nil => rfl
  | cons b rest ih =>
    obtain ⟨k, r⟩ := b
    by_cases hk : k = key
    · simp [readOut, getOwn, getOwnRef, hk]
    · simpa [readOut, getOwn, getOwnRef, hk] using ih

theorem getOwnRef_mem (groups : GroupRefs) (key : String) (r : Ref)
    (h : getOwnRef groups key = some r) : r ∈ groups.map Prod.snd := by
  induction groups with
  | nil => simp [getOwnRef] at h
  | cons b rest ih =>
    obtain ⟨k, r0⟩ := b
    by_cases hk : k = key
    · simp only [getOwnRef, if_pos hk] at h
      simp [Option.some.inj h]
    · simp only [getOwnRef, if_neg hk] at h
      simp [ih h]

theorem readOut_congr (h h1 : Heap) (groups : GroupRefs)
    (hsame : ∀ r ∈ groups.map Prod.snd, readArray h1 r = readArray h r) :
    readOut h1 groups = readOut h groups := by
  unfold readOut
  apply List.map_congr_left
  intro b hb
  rw [hsame b.2 (List.mem_map_of_mem Prod.snd hb)]

theorem readOut_write (h : Heap) (groups : GroupRefs) (key : String) (r : Ref)
    (v : List Task) (hn : (groups.map Prod.snd).Nodup) (hget : getOwnRef groups key = some r)
    (hr : r < h.arrays.length) :
    readOut (writeArray h r v) groups = setOwn (readOut h groups) key v := by
  induction groups with
  | nil => simp [getOwnRef] at hget
  | cons b rest ih =>
    obtain ⟨k, r0⟩ := b
    rw [List.map_cons, List.nodup_cons] at hn
    by_cases hk : k = key
    · simp only [getOwnRef, if_pos hk] at hget
      have hr0 : r0 = r := Option.some.inj hget
      subst hr0
      have hrest : readOut (writeArray h r0 v) rest = readOut h rest := by
        apply readOut_congr
        intro r1 hr1
        exact readArray_write_ne h r0 r1 v (fun e => hn.1 (e ▸ hr1))
      have hhead : readArray (writeArray h r0 v) r0 = v := readArray_write_eq h r0 v hr
      have e1 : readOut (writeArray h r0 v) ((k, r0) :: rest) =
          (k, v) :: readOut h rest := by
        rw [← hrest, ← hhead]
        simp [readOut, hhead]
      rw [e1]
      simp [readOut, setOwn, hk]
    · simp only [getOwnRef, if_neg hk] at hget
      have hne : r ≠ r0 := fun e => hn.1 (e ▸ getOwnRef_mem rest key r hget)
      have e1 : readOut (writeArray h r v) ((k, r0) :: rest) =
          (k, readArray h r0) :: readOut (writeArray h r v) rest := by
        simp [readOut, readArray_write_ne h r r0 v hne]
      rw [e1, ih hn.2 hget]
      simp [readOut, setOwn, hk]

theorem setOwnRef_of_none (groups : GroupRefs) (key : String) (r : Ref)
    (h : getOwnRef groups key = none) : setOwnRef groups key r = groups ++ [(key, r)] := by
  induction groups with
  | nil => rfl
  | cons b rest ih =>
    obtain ⟨k, r0⟩ := b
    by_cases hk : k = key
    · simp [getOwnRef, hk] at h
    · simp only [getOwnRef, if_neg hk] at h
      simp [setOwnRef, hk, ih h]

theorem forEachBodyHeap_spec (h0 h : Heap) (groups : GroupRefs) (task : Task)
    (hinv : GroupsInv h0 groups h) :
    Preserves h0 (forEachBodyHeap groups h task).2 ∧
      Except.map (readOut (forEachBodyHeap groups h task).2) (forEachBodyHeap groups h task).1 =
        forEachBody (readOut h groups) task ∧
      ∀ groups1, (forEachBodyHeap groups h task).1 = Except.ok groups1 →
        GroupsInv h0 groups1 (forEachBodyHeap groups h task).2 := by
  obtain ⟨hpres, hnodup, hfresh⟩ := hinv
  have hown := getOwn_readOut h groups task.priority
  unfold forEachBodyHeap forEachBody getPropertyRef getProperty
  cases hget : getOwnRef groups task.priority with
  | some r =>
    rw [hget] at hown
    have hmem := getOwnRef_mem groups task.priority r hget
    have hr := hfresh r hmem
    simp only [hown, Option.map_some']
    refine ⟨preserves_write h0 h r _ hpres hr.1, ?_, ?_⟩
    · simp only [Except.map]
      rw [readOut_write h groups task.priority r _ hnodup hget hr.2]
    · intro groups1 hg
      have hg1 : groups = groups1 := Except.ok.inj hg
      subst hg1
      refine ⟨preserves_write h0 h r _ hpres hr.1, hnodup, ?_⟩
      intro r1 hr1
      rw [length_write]
      exact hfresh r1 hr1
  | none =>
    rw [hget] at hown
    simp only [hown, Option.map_none']
    by_cases hp : task.priority ∈ objectPrototypeKeys
    · simp only [if_pos hp]
      refine ⟨hpres, rfl, ?_⟩
      intro groups1 hg
      cases hg
    · simp only [if_neg hp]
      have hold : ∀ r ∈ groups.map Prod.snd,
          readArray (allocArray h [task]).2 r = readArray h r :=
        fun r hr => readArray_alloc_old h [task] r (hfresh r hr).2
      refine ⟨preserves_trans h0 h _ hpres (preserves_alloc h [task]), ?_, ?_⟩
      · simp only [Except.map]
        rw [setOwnRef_of_none groups task.priority _ hget,
          setOwn_of_none (readOut h groups) task.priority [task] hown]
        have e1 : readOut (allocArray h [task]).2
            (groups ++ [(task.priority, (allocArray h [task]).1)]) =
            readOut (allocArray h [task]).2 groups ++
              [(task.priority, readArray (allocArray h [task]).2 (allocArray h [task]).1)] := by
          simp [readOut]
        rw [e1, readArray_alloc_new, readOut_congr h _ groups hold]
      · intro groups1 hg
        have hg1 : setOwnRef groups task.priority (allocArray h [task]).1 = groups1 :=
          Except.ok.inj hg
        subst hg1
        rw [setOwnRef_of_none groups task.priority _ hget]
        refine ⟨preserves_trans h0 h _ hpres (preserves_alloc h [task]), ?_, ?_⟩
        · rw [List.map_append, List.nodup_append]
          refine ⟨hnodup, by simp, ?_⟩
          intro r hr1 hr2
          simp only [List.map_cons, List.map_nil, List.mem_singleton] at hr2
          have := (hfresh r hr1).2
          rw [hr2] at this
          exact Nat.lt_irrefl _ this
        · intro r hr
          rw [List.map_append, List.mem_append] at hr
          rw [length_alloc]
          rcases hr with hr | hr
          · exact ⟨(hfresh r hr).1, Nat.lt_succ_of_lt (hfresh r hr).2⟩
          · simp only [List.map_cons, List.map_nil, List.mem_singleton] at hr
            rw [hr]
            exact ⟨hpres.1, Nat.lt_succ_self _⟩

theorem forEachLoop_spec (h0 : Heap) (taskList : Ref) (hlive : taskList < h0.arrays.length)
    (ks : List Nat) :
    ∀ (groups : GroupRefs) (h : Heap), GroupsInv h0 groups h →
      Preserves h0 (forEachLoop taskList ks groups h).2 ∧
        Except.map (readOut (forEachLoop taskList ks groups h).2)
            (forEachLoop taskList ks groups h).1 =
          (ks.filterMap (fun k => (readArray h0 taskList)[k]?)).foldlM forEachBody
            (readOut h groups) := by
  induction ks with
  | nil =>
    intro groups h hinv
    exact ⟨hinv.1, rfl⟩
  | cons k ks ih =>
    intro groups h hinv
    have hread : readArray h taskList = readArray h0 taskList := hinv.1.2 taskList hlive
    unfold forEachLoop
    rw [hread]
    cases hk : (readArray h0 taskList)[k]? with
    | none =>
      simp only [List.filterMap_cons, hk]
      exact ih groups h hinv
    | some task =>
      simp only [List.filterMap_cons, hk, List.foldlM_cons]
      rcases forEachBodyHeap_spec h0 h groups task hinv with ⟨hpres, hres, hnext⟩
      rcases hstep : forEachBodyHeap groups h task with ⟨res, h1⟩
      rw [hstep] at hpres hres hnext
      cases res with
      | error e =>
        simp only [Except.map] at hres
        rw [← hres]
        exact ⟨hpres, rfl⟩
      | ok groups1 =>
        simp only [Except.map] at hres
        rw [← hres]
        exact ih groups1 h1 (hnext groups1 rfl)

theorem filterMap_getElem?_range (x : List Task) :
    (List.range x.length).filterMap (fun k => x[k]?) = x := by
  induction x with
  | nil => rfl
  | cons a x ih =>
    rw [List.length_cons, List.range_succ_eq_map, List.filterMap_cons, List.filterMap_map]
    have hfun : (fun k => (a :: x)[k]?) ∘ Nat.succ = fun k => x[k]? := by
      funext k
      simp
    rw [hfun, ih]
    simp

theorem groupTasksByPriorityHeap_spec (h : Heap) (taskList : Ref)
    (hlive : taskList < h.arrays.length) :
    Preserves h (groupTasksByPriorityHeap h taskList).2 ∧
      Except.map (readOut (groupTasksByPriorityHeap h taskList).2)
          (groupTasksByPriorityHeap h taskList).1 =
        groupTasksByPriority (readArray h taskList) := by
  have hp1 := preserves_alloc h []
  have hp2 := preserves_trans h _ _ hp1 (preserves_alloc (allocArray h []).2 [])
  have hp3 := preserves_trans h _ _ hp2
    (preserves_alloc (allocArray (allocArray h []).2 []).2 [])
  have hinv : GroupsInv h
      [("High", (allocArray h []).1), ("Medium", (allocArray (allocArray h []).2 []).1),
        ("Low", (allocArray (allocArray (allocArray h []).2 []).2 []).1)]
      (allocArray (allocArray (allocArray h []).2 []).2 []).2 := by
    refine ⟨hp3, ?_, ?_⟩
    · simp [allocArray]
    · intro r hr
      simp only [allocArray, List.map_cons, List.map_nil, List.mem_cons, List.mem_singleton,
        List.not_mem_nil, or_false, List.length_append, List.length_singleton] at hr
      simp only [allocArray, List.length_append, List.length_singleton]
      rcases hr with e | e | e <;> rw [e] <;> constructor <;>
        first | omega | exact Nat.lt_succ_of_le (by omega)
  have hread : readArray (allocArray (allocArray (allocArray h []).2 []).2 []).2 taskList =
      readArray h taskList := hp3.2 taskList hlive
  have hout : readOut (allocArray (allocArray (allocArray h []).2 []).2 []).2
      [("High", (allocArray h []).1), ("Medium", (allocArray (allocArray h []).2 []).1),
        ("Low", (allocArray (allocArray (allocArray h []).2 []).2 []).1)] = initialGroups := by
    have e1 : readArray (allocArray (allocArray (allocArray h []).2 []).2 []).2
        (allocArray h []).1 = [] := by
      rw [readArray_alloc_old _ _ _ (by simp [allocArray]),
        readArray_alloc_old _ _ _ (by simp [allocArray]), readArray_alloc_new]
    have e2 : readArray (allocArray (allocArray (allocArray h []).2 []).2 []).2
        (allocArray (allocArray h []).2 []).1 = [] := by
      rw [readArray_alloc_old _ _ _ (by simp [allocArray]), readArray_alloc_new]
    have e3 : readArray (allocArray (allocArray (allocArray h []).2 []).2 []).2
        (allocArray (allocArray (allocArray h []).2 []).2 []).1 = [] :=
      readArray_alloc_new _ _
    simp only [readOut, List.map_cons, List.map_nil, e1, e2, e3, initialGroups]
  rcases forEachLoop_spec h taskList hlive (List.range (readArray h taskList).length) _ _ hinv
    with ⟨hpres, hres⟩
  unfold groupTasksByPriorityHeap
  simp only [hread]
  refine ⟨hpres, ?_⟩
  rw [hres, filterMap_getElem?_range, hout]
  rfl

/-- C15: with arrays held in a heap and passed by reference, each of `sortTasks`,
`groupTasksByPriority` and `detectOverlaps` leaves every array that existed before the call,
the caller's among them, with the same tasks in the same positions; `sortTasks` returns a new
array, the only one it sorts in place, and the three calls compute what the functions on
values compute from the contents of the caller's array. -/
theorem input_unmodified (h : Heap) (taskList : Ref) (hlive : taskList < h.arrays.length) :
    (readArray (sortTasksHeap h taskList).2 taskList = readArray h taskList ∧
      (∀ r, r < h.arrays.length → readArray (sortTasksHeap h taskList).2 r = readArray h r) ∧
      (sortTasksHeap h taskList).1 ≠ taskList ∧
      readArray (sortTasksHeap h taskList).2 (sortTasksHeap h taskList).1 =
        sortTasks (readArray h taskList)) ∧
    (readArray (groupTasksByPriorityHeap h taskList).2 taskList = readArray h taskList ∧
      (∀ r, r < h.arrays.length →
        readArray (groupTasksByPriorityHeap h taskList).2 r = readArray h r) ∧
      Except.map (readOut (groupTasksByPriorityHeap h taskList).2)
          (groupTasksByPriorityHeap h taskList).1 =
        groupTasksByPriority (readArray h taskList)) ∧
    (readArray (detectOverlapsHeap h taskList).2 taskList = readArray h taskList ∧
      (∀ r, r < h.arrays.length →
        readArray (detectOverlapsHeap h taskList).2 r = readArray h r) ∧
      (detectOverlapsHeap h taskList).1 = detectOverlaps (readArray h taskList)) := by
  rcases sortTasksHeap_spec h taskList with ⟨hs1, hs2, hs3⟩
  rcases groupTasksByPriorityHeap_spec h taskList hlive with ⟨hg1, hg2⟩
  rcases detectOverlapsHeap_spec h taskList with ⟨hd1, hd2⟩
  refine ⟨⟨hs1.2 taskList hlive, hs1.2, ?_, hs3⟩, ⟨hg1.2 taskList hlive, hg1.2, hg2⟩,
    ⟨hd1.2 taskList hlive, hd1.2, hd2⟩⟩
  rw [hs2]
  exact Nat.ne_of_gt hlive

/-- Witness of C15 on a heap that holds the sample data, in reverse order, at address 0. -/
theorem input_unmodified_witness :
    (readArray (sortTasksHeap (Heap.mk [tasks.reverse]) 0).2 0 =
        readArray (Heap.mk [tasks.reverse]) 0 ∧
      (∀ r, r < (Heap.mk [tasks.reverse]).arrays.length →
        readArray (sortTasksHeap (Heap.mk [tasks.reverse]) 0).2 r =
          readArray (Heap.mk [tasks.reverse]) r) ∧
      (sortTasksHeap (Heap.mk [tasks.reverse]) 0).1 ≠ 0 ∧
      readArray (sortTasksHeap (Heap.mk [tasks.reverse]) 0).2
          (sortTasksHeap (Heap.mk [tasks.reverse]) 0).1 =
        sortTasks (readArray (Heap.mk [tasks.reverse]) 0)) ∧
    (readArray (groupTasksByPriorityHeap (Heap.mk [tasks.reverse]) 0).2 0 =
        readArray (Heap.mk [tasks.reverse]) 0 ∧
      (∀ r, r < (Heap.mk [tasks.reverse]).arrays.length →
        readArray (groupTasksByPriorityHeap (Heap.mk [tasks.reverse]) 0).2 r =
          readArray (Heap.mk [tasks.reverse]) r) ∧
      Except.map (readOut (groupTasksByPriorityHeap (Heap.mk [tasks.reverse]) 0).2)
          (groupTasksByPriorityHeap (Heap.mk [tasks.reverse]) 0).1 =
        groupTasksByPriority (readArray (Heap.mk [tasks.reverse]) 0)) ∧
    (readArray (detectOverlapsHeap (Heap.mk [tasks.reverse]) 0).2 0 =
        readArray (Heap.mk [tasks.reverse]) 0 ∧
      (∀ r, r < (Heap.mk [tasks.reverse]).arrays.length →
        readArray (detectOverlapsHeap (Heap.mk [tasks.reverse]) 0).2 r =
          readArray (Heap.mk [tasks.reverse]) r) ∧
      (detectOverlapsHeap (Heap.mk [tasks.reverse]) 0).1 =
        detectOverlaps (readArray (Heap.mk [tasks.reverse]) 0)) :=
  input_unmodified (Heap.mk [tasks.reverse]) 0 (by decide)

end Scheduler
